import Mathlib

/-!
Verification of the reactive dependency-graph evaluator ("react") from
`src/src/lib.rs`.

The Rust code keeps two arenas of cells — `inputs : Vec<InputCell<T>>` and
`compute_cells : Vec<RefCell<ComputeCell<T>>>` — plus a transient map
`values_before_update : RefCell<HashMap<usize, T>>` used by one `set_value`
call to remember the pre-propagation value of every compute cell it touches.

This file embeds that program shallowly:

* `Vec` becomes `List`, indices stay `Nat`, `HashMap<usize, T>` becomes an
  association list `List (Nat × T)` with a `HashMap::entry(..).or_insert(..)`
  analogue (`entryOrInsert`).  The iteration order of a `HashMap` is
  unspecified in Rust; the model iterates the entries in insertion order —
  every property proved below is insensitive to this order.
* The boxed compute closures `Box<dyn Fn(&[T]) -> T>` become plain functions
  `List T → T` (the contract requires them to be pure).  The boxed callbacks
  `Vec<Option<Box<dyn FnMut(T)>>>` are represented by their only observable
  part, a list of liveness flags `List Bool` (`true` = `Some(..)` slot,
  `false` = tombstoned `None` slot); an execution of callbacks is modelled by
  the list of events `(cell id, callback id, value passed)` it produces.
* `Option::unwrap()` on a value the surrounding code guarantees to be `some`
  is modelled by `Option.getD default`; `Vec` indexing that the code
  guarantees to be in bounds is modelled by `List.get?` with the `none`
  branch mapped to a no-op or an error value, as noted at each use site.
* The recursion of `update_value` over the downstream graph has no
  structural termination measure, so the model threads explicit fuel and
  returns `none` when the fuel runs out.  `set_value` supplies
  `compute_cells.length + 1` units of fuel; the termination theorem for
  claim C9 proves this can never run out on states reachable through the
  public operations.
* The `RefCell` borrow discipline of the source is modelled explicitly:
  `update_value` takes its cell's `RefMut` at lib.rs 228 and holds it
  through the recursive `for_each` over the downstream list (lib.rs
  239–241), so while a cell's subtree is being updated that cell stays
  mutably borrowed.  The model threads the list of such cells (`borrowed`)
  through the recursion; a dependency read of a still-borrowed cell — the
  source's `borrow()` panic at lib.rs 184, reachable on a skip-level
  diamond where a cell depends on both its parent and a farther ancestor of
  the propagation chain — and an out-of-range arena index are modelled as
  the outcome `some (.error ())` ("the call panics, no state is returned"),
  distinct from fuel exhaustion (`none`) and from a normal return
  (`some (.ok _)`).  A borrow-free variant of the recursion
  (`updateValueU`, `updateDownstreamU`) is kept purely as a proof device;
  the refinement theorems (`updBridge`) show the faithful recursion agrees
  with it on every non-panicking execution.
-/

set_option maxHeartbeats 1600000
set_option linter.unusedSectionVars false

namespace React

/-- List update at an index, a no-op when the index is out of range
(used only where the Rust code's indexing is guaranteed in bounds). -/
def listModify {α : Type} : List α → Nat → (α → α) → List α
  | [], _, _ => []
  | a :: as, 0, f => f a :: as
  | a :: as, n + 1, f => a :: listModify as n f

/-- Lookup in an association list keyed by `Nat` (the `HashMap` model). -/
def mlookup {T : Type} : List (Nat × T) → Nat → Option T
  | [], _ => none
  | p :: ps, k => if p.1 = k then some p.2 else mlookup ps k

/-- Model of `HashMap::entry(k).or_insert(v)`: insert `(k, v)` only when the
key is absent. -/
def entryOrInsert {T : Type} (m : List (Nat × T)) (k : Nat) (v : T) : List (Nat × T) :=
  if (mlookup m k).isSome then m else m ++ [(k, v)]

/-- The keys of the association list are pairwise distinct. -/
def keysNodup {T : Type} (m : List (Nat × T)) : Prop :=
  (m.map Prod.fst).Nodup

/-- `CellId` from the source: a tagged union of an input-cell index
(`InputCellId`) and a compute-cell index (`ComputeCellId`). -/
inductive CellId where
  | Input : Nat → CellId
  | Compute : Nat → CellId
deriving DecidableEq

/-- `RemoveCallbackError` from the source. -/
inductive RemoveCallbackError where
  | NonexistentCell : RemoveCallbackError
  | NonexistentCallback : RemoveCallbackError
deriving DecidableEq

/-- `InputCell<T>`: current value and the list of downstream compute cells. -/
structure InputCell (T : Type) where
  value : T
  downstream : List Nat

/-- `ComputeCell<'a, T>`: cached value, downstream compute cells, dependency
list, compute function, and callback slots (`true` = live, `false` =
removed). -/
structure ComputeCell (T : Type) where
  value : T
  downstream : List Nat
  dependencies : List CellId
  compute_func : List T → T
  callbacks : List Bool

/-- `Reactor<'a, T>`. -/
structure Reactor (T : Type) where
  inputs : List (InputCell T)
  compute_cells : List (ComputeCell T)
  values_before_update : List (Nat × T)

variable {T : Type} [DecidableEq T] [Inhabited T]

/-- `Reactor::new()`. -/
def Reactor.new : Reactor T :=
  { inputs := [], compute_cells := [], values_before_update := [] }

/-- `Reactor::create_input`: push a fresh input cell, return its index
(`inputs.len() - 1` after the push, i.e. the old length). -/
def Reactor.create_input (r : Reactor T) (initial : T) : Reactor T × Nat :=
  ({ r with inputs := r.inputs ++ [{ value := initial, downstream := [] }] },
   r.inputs.length)

/-- `Reactor::valid`: does the handle name an existing cell? -/
def Reactor.valid (r : Reactor T) : CellId → Bool
  | .Input i => i < r.inputs.length
  | .Compute j => j < r.compute_cells.length

/-- `Reactor::value`: current stored/cached value, `none` for a dangling
handle. -/
def Reactor.value (r : Reactor T) : CellId → Option T
  | .Input i => (r.inputs.get? i).map (fun c => c.value)
  | .Compute j => (r.compute_cells.get? j).map (fun c => c.value)

/-- `Reactor::values_from_dependencies`.  The source `unwrap`s each value
(the caller guarantees validity); the model uses `getD default`. -/
def Reactor.values_from_dependencies (r : Reactor T) (dependencies : List CellId) : List T :=
  dependencies.map (fun cid => (r.value cid).getD default)

/-- The dependency read-out of `values_from_dependencies_and_upstream`
ignoring the `RefCell` borrow state: the upstream cell's value is taken from
the `upstream_value` argument, every other dependency is read through
`value` and `unwrap`ped (modelled by `getD default`).  This is what the
source computes on the executions where no read panics; the faithful
function below returns `.ok` of exactly this list on those executions.  Kept
as a proof device for reasoning about non-panicking runs. -/
def Reactor.vfduPure (r : Reactor T) (dependencies : List CellId)
    (upstream : CellId) (upstream_value : T) : List T :=
  dependencies.map (fun cid =>
    if cid = upstream then upstream_value else (r.value cid).getD default)

/-- Does reading the dependency list panic?  In the source every dependency
other than the direct upstream is read through `self.value` (lib.rs 149),
which for a compute cell calls `cell.borrow()` (lib.rs 184); that panics
exactly when the dependency is one of the compute cells whose `RefMut`
(taken at lib.rs 228) is still held by an active `update_value` frame —
the `borrowed` list. -/
def depsBorrowPanic (borrowed : List Nat) (dependencies : List CellId)
    (upstream : CellId) : Bool :=
  dependencies.any (fun cid =>
    if cid = upstream then false
    else match cid with
      | .Input _ => false
      | .Compute m => decide (m ∈ borrowed))

/-- `Reactor::values_from_dependencies_and_upstream`: substitute the passed
value for the direct upstream and read every other dependency through
`self.value`.  Reading a compute dependency `borrow()`s its `RefCell`
(lib.rs 149 → 184), which panics when that cell is still mutably borrowed by
an active ancestor `update_value` frame.  The reads are effect-free, so the
call panics (`.error ()`) exactly when some dependency is such a cell, and
otherwise returns the same list the borrow-free read-out computes. -/
def Reactor.values_from_dependencies_and_upstream (r : Reactor T) (borrowed : List Nat)
    (dependencies : List CellId) (upstream : CellId) (upstream_value : T) :
    Except Unit (List T) :=
  if depsBorrowPanic borrowed dependencies upstream then .error ()
  else .ok (r.vfduPure dependencies upstream upstream_value)

/-- `Reactor::add_downstream_cell`: record `down` as a downstream listener of
`cell_id`.  The source `unwrap`s the arena access (the caller guarantees
validity); out-of-range indices make the model a no-op. -/
def Reactor.add_downstream_cell (r : Reactor T) (cell_id : CellId) (down : Nat) : Reactor T :=
  match cell_id with
  | .Input i =>
    { r with inputs := listModify r.inputs i (fun c => { c with downstream := c.downstream ++ [down] }) }
  | .Compute j =>
    { r with compute_cells := listModify r.compute_cells j (fun c => { c with downstream := c.downstream ++ [down] }) }

/-- `Reactor::create_compute`: reject the first invalid dependency; otherwise
seed the cached value by evaluating the compute function on the current
dependency values, push the cell, and register it downstream of every
dependency.  Returns the new state plus `Ok(new index)` or `Err(bad handle)`. -/
def Reactor.create_compute (r : Reactor T) (dependencies : List CellId)
    (compute_func : List T → T) : Reactor T × Except CellId Nat :=
  match dependencies.find? (fun cid => !(r.valid cid)) with
  | some bad => (r, .error bad)
  | none =>
    let cell : ComputeCell T :=
      { value := compute_func (r.values_from_dependencies dependencies)
        downstream := []
        dependencies := dependencies
        compute_func := compute_func
        callbacks := [] }
    let r1 : Reactor T := { r with compute_cells := r.compute_cells ++ [cell] }
    let new_id : Nat := r.compute_cells.length
    (dependencies.foldl (fun acc cid => acc.add_downstream_cell cid new_id) r1, .ok new_id)

/-- One visit of `update_value` minus the recursion: the value the cell is
about to cache, `compute_func` applied to the current dependency values with
the upstream value overridden. -/
def Reactor.stepValue (r : Reactor T) (cell : ComputeCell T) (upstream : CellId)
    (upstream_value : T) : T :=
  cell.compute_func (r.vfduPure cell.dependencies upstream upstream_value)

/-- One visit of `update_value` minus the recursion: record the cell's
pre-visit value in `values_before_update` (first visit wins) and overwrite
the cached value with `stepValue`. -/
def Reactor.stepState (r : Reactor T) (id : Nat) (cell : ComputeCell T) (upstream : CellId)
    (upstream_value : T) : Reactor T :=
  { r with
    values_before_update := entryOrInsert r.values_before_update id cell.value
    compute_cells := listModify r.compute_cells id
      (fun c => { c with value := r.stepValue cell upstream upstream_value }) }

/-- The propagation recursion with the `RefCell` borrow discipline ignored:
one visit records the before-value and stores `stepValue`, then recurses
into the downstream cells.  This is NOT the source semantics (the source
panics when a dependency read hits a still-borrowed cell); it is the
over-approximation that the faithful `update_value` below refines on its
non-panicking executions, kept as a proof device (`U` = unchecked). -/
def Reactor.updateValueU : Nat → Reactor T → Nat → CellId → T → Option (Reactor T)
  | 0, _, _, _, _ => none
  | fuel + 1, r, id, upstream, upstream_value =>
    match r.compute_cells.get? id with
    | none => none
    | some cell =>
      cell.downstream.foldl
        (fun acc d => acc.bind (fun s =>
          Reactor.updateValueU fuel s d (CellId.Compute id) (r.stepValue cell upstream upstream_value)))
        (some (r.stepState id cell upstream upstream_value))

/-- The `for_each` loop of `updateValueU` over a downstream list. -/
def Reactor.updateDownstreamU (fuel : Nat) (r : Reactor T) (ds : List Nat)
    (upstream : CellId) (v : T) : Option (Reactor T) :=
  ds.foldl (fun acc d => acc.bind (fun s => Reactor.updateValueU fuel s d upstream v)) (some r)

/-- `Reactor::update_value`, with the `RefCell` borrow discipline explicit.
`borrowed` lists the compute cells whose `RefMut` (taken at lib.rs 228) is
still held by an active ancestor frame; the current frame adds its own cell
while the dependency read-out and the downstream recursion run (its `RefMut`
lives to the end of the function body).  Outcomes: `none` is fuel
exhaustion (ruled out from the public entry point by the termination
theorem); `some (.error ())` is a source panic — an out-of-range arena
index, a `borrow_mut` of an already borrowed cell, or a dependency read of
a cell still mutably borrowed by an ancestor frame; `some (.ok r')` is
normal completion.  A panic aborts the whole call, so it carries no state. -/
def Reactor.update_value : Nat → Reactor T → List Nat → Nat → CellId → T →
    Option (Except Unit (Reactor T))
  | 0, _, _, _, _, _ => none
  | fuel + 1, r, borrowed, id, upstream, upstream_value =>
    match r.compute_cells.get? id with
    | none => some (.error ())
    | some cell =>
      if id ∈ borrowed then some (.error ())
      else
        match r.values_from_dependencies_and_upstream (id :: borrowed)
            cell.dependencies upstream upstream_value with
        | .error _ => some (.error ())
        | .ok vals =>
          cell.downstream.foldl
            (fun acc d => match acc with
              | none => none
              | some (.error e) => some (.error e)
              | some (.ok s) =>
                Reactor.update_value fuel s (id :: borrowed) d (CellId.Compute id)
                  (cell.compute_func vals))
            (some (.ok { r with
              values_before_update := (entryOrInsert r.values_before_update id cell.value)
              compute_cells := (listModify r.compute_cells id
                (fun c => { c with value := cell.compute_func vals })) }))

/-- The `for_each` loops of `set_value` and `update_value`: run
`update_value` over a list of downstream cells, threading the state and
aborting on a panic. -/
def Reactor.updateDownstream (fuel : Nat) (r : Reactor T) (borrowed : List Nat)
    (ds : List Nat) (upstream : CellId) (v : T) : Option (Except Unit (Reactor T)) :=
  ds.foldl (fun acc d => match acc with
    | none => none
    | some (.error e) => some (.error e)
    | some (.ok s) => Reactor.update_value fuel s borrowed d upstream v)
    (some (.ok r))

/-- The events `(cell id, callback id, value)` produced by invoking every
live callback slot of one cell, ids counted from `start`. -/
def activeCallbackEvents (id : Nat) (v : T) : List Bool → Nat → List (Nat × Nat × T)
  | [], _ => []
  | b :: bs, start => (if b then [(id, start, v)] else []) ++ activeCallbackEvents id v bs (start + 1)

/-- One iteration of the loop in `maybe_execute_callbacks`: given an entry
`(id, old value)` of `values_before_update`, fire every live callback of cell
`id` with its current value when that value differs from the old one. -/
def Reactor.firedForEntry (r : Reactor T) (p : Nat × T) : List (Nat × Nat × T) :=
  match r.compute_cells.get? p.1 with
  | none => []
  | some cell => if cell.value ≠ p.2 then activeCallbackEvents p.1 cell.value cell.callbacks 0 else []

/-- `Reactor::maybe_execute_callbacks`, modelled by the list of callback
invocation events it performs (the state itself is unchanged; the `FnMut`
closures mutate only their own captured state). -/
def Reactor.maybe_execute_callbacks (r : Reactor T) : List (Nat × Nat × T) :=
  (r.values_before_update.map r.firedForEntry).flatten

/-- Store a new value into input `id` (the first half of `set_value`). -/
def Reactor.setInput (r : Reactor T) (id : Nat) (v : T) : Reactor T :=
  { r with inputs := listModify r.inputs id (fun c => { c with value := v }) }

/-- `Reactor::set_value`: `some (.ok (r, false, []))` with the state
unchanged for a dangling handle; otherwise store the value and propagate
through the input's downstream cells starting with no cell borrowed (each
direct call's borrows end before the next starts).  When propagation
completes normally, fire callbacks, clear `values_before_update`, and
return `true` together with the fired-callback events; when it panics the
whole call panics (`some (.error ())`) and nothing is returned or fired.
`none` only on fuel exhaustion, which the termination theorem rules out for
reachable states. -/
def Reactor.set_value (r : Reactor T) (id : Nat) (new_value : T) :
    Option (Except Unit (Reactor T × Bool × List (Nat × Nat × T))) :=
  match r.inputs.get? id with
  | none => some (.ok (r, false, []))
  | some cell =>
    match Reactor.updateDownstream (r.compute_cells.length + 1) (r.setInput id new_value)
        [] cell.downstream (CellId.Input id) new_value with
    | none => none
    | some (.error e) => some (.error e)
    | some (.ok r2) =>
      some (.ok ({ r2 with values_before_update := [] }, true, r2.maybe_execute_callbacks))

/-- `Reactor::add_callback`: append a live callback slot, returning its id
(the old slot count), or `none` for a dangling cell handle. -/
def Reactor.add_callback (r : Reactor T) (id : Nat) : Reactor T × Option Nat :=
  match r.compute_cells.get? id with
  | none => (r, none)
  | some cell =>
    ({ r with compute_cells := (listModify r.compute_cells id
        (fun c => { c with callbacks := c.callbacks ++ [true] })) },
     some cell.callbacks.length)

/-- `Reactor::remove_callback`, faithfully including the source's choice of
error value on each branch: a dangling cell handle gives `NonexistentCell`;
an out-of-range callback id on a valid cell also gives `NonexistentCell`
(the inner `map_or(Err(NonexistentCell), ..)` of the source); a tombstoned
slot gives `NonexistentCallback`; a live slot is tombstoned. -/
def Reactor.remove_callback (r : Reactor T) (cell_id : Nat) (callback_id : Nat) :
    Reactor T × Except RemoveCallbackError Unit :=
  match r.compute_cells.get? cell_id with
  | none => (r, .error .NonexistentCell)
  | some cell =>
    match cell.callbacks.get? callback_id with
    | none => (r, .error .NonexistentCell)
    | some slot =>
      if slot then
        ({ r with compute_cells := (listModify r.compute_cells cell_id
            (fun c => { c with callbacks := listModify c.callbacks callback_id (fun _ => false) })) },
         .ok ())
      else (r, .error .NonexistentCallback)

/-! ### Basic lemmas on the list helpers -/

theorem listModify_length {α : Type} (f : α → α) :
    ∀ (l : List α) (i : Nat), (listModify l i f).length = l.length
  | [], _ => rfl
  | _ :: _, 0 => rfl
  | _ :: as, i + 1 => congrArg Nat.succ (listModify_length f as i)

theorem get?_listModify_self {α : Type} (f : α → α) :
    ∀ (l : List α) (i : Nat), (listModify l i f).get? i = (l.get? i).map f
  | [], 0 => rfl
  | [], _ + 1 => rfl
  | _ :: _, 0 => rfl
  | _ :: as, i + 1 => get?_listModify_self f as i

theorem get?_listModify_ne {α : Type} (f : α → α) :
    ∀ (l : List α) (i j : Nat), j ≠ i → (listModify l i f).get? j = l.get? j
  | [], _, _, _ => rfl
  | _ :: _, 0, 0, h => absurd rfl h
  | _ :: _, 0, _ + 1, _ => rfl
  | _ :: _, _ + 1, 0, _ => rfl
  | _ :: as, i + 1, j + 1, h =>
    get?_listModify_ne f as i j (fun hji => h (congrArg Nat.succ hji))

theorem mlookup_append_some {T : Type} {m m' : List (Nat × T)} {k : Nat} {x : T}
    (h : mlookup m k = some x) : mlookup (m ++ m') k = some x := by
  induction m with
  | nil => simp [mlookup] at h
  | cons p ps ih =>
    rw [List.cons_append]
    unfold mlookup at h ⊢
    by_cases hk : p.1 = k
    · rw [if_pos hk] at h ⊢; exact h
    · rw [if_neg hk] at h ⊢; exact ih h

theorem mlookup_append_none {T : Type} {m : List (Nat × T)} {k : Nat}
    (h : mlookup m k = none) (m' : List (Nat × T)) :
    mlookup (m ++ m') k = mlookup m' k := by
  induction m with
  | nil => rfl
  | cons p ps ih =>
    rw [List.cons_append]
    show (if p.1 = k then some p.2 else mlookup (ps ++ m') k) = mlookup m' k
    by_cases hk : p.1 = k
    · unfold mlookup at h; rw [if_pos hk] at h; exact absurd h (by simp)
    · rw [if_neg hk]
      unfold mlookup at h
      rw [if_neg hk] at h
      exact ih h

theorem entryOrInsert_of_some {T : Type} {m : List (Nat × T)} {k : Nat} {x : T} (v : T)
    (h : mlookup m k = some x) : entryOrInsert m k v = m := by
  simp [entryOrInsert, h]

theorem mlookup_entryOrInsert_self {T : Type} (m : List (Nat × T)) (k : Nat) (v : T) :
    mlookup (entryOrInsert m k v) k = some ((mlookup m k).getD v) := by
  unfold entryOrInsert
  cases h : mlookup m k with
  | none => simp [h, mlookup_append_none h, mlookup]
  | some x => simp [h, mlookup_append_some h]

theorem mlookup_entryOrInsert_ne {T : Type} (m : List (Nat × T)) (k k' : Nat) (v : T)
    (h : k' ≠ k) : mlookup (entryOrInsert m k v) k' = mlookup m k' := by
  unfold entryOrInsert
  cases hm : mlookup m k with
  | some x => simp
  | none =>
    simp only [Option.isSome_none, Bool.false_eq_true, if_false]
    cases hm' : mlookup m k' with
    | some y => exact mlookup_append_some hm'
    | none =>
      rw [mlookup_append_none hm']
      show (if k = k' then some v else mlookup [] k') = none
      rw [if_neg (fun hh : k = k' => h hh.symm)]
      rfl

theorem mlookup_eq_none_of_not_mem_keys {T : Type} {m : List (Nat × T)} {k : Nat}
    (h : k ∉ m.map Prod.fst) : mlookup m k = none := by
  induction m with
  | nil => rfl
  | cons p ps ih =>
    rw [List.map_cons, List.mem_cons] at h
    push_neg at h
    unfold mlookup
    rw [if_neg (fun hh : p.1 = k => h.1 hh.symm)]
    exact ih h.2

theorem not_mem_keys_of_mlookup_none {T : Type} {m : List (Nat × T)} {k : Nat}
    (h : mlookup m k = none) : k ∉ m.map Prod.fst := by
  induction m with
  | nil => simp
  | cons p ps ih =>
    unfold mlookup at h
    by_cases hk : p.1 = k
    · rw [if_pos hk] at h; exact absurd h (by simp)
    · rw [if_neg hk] at h
      rw [List.map_cons, List.mem_cons]
      push_neg
      exact ⟨fun hh => hk hh.symm, ih h⟩

theorem keysNodup_entryOrInsert {T : Type} {m : List (Nat × T)} (k : Nat) (v : T)
    (h : keysNodup m) : keysNodup (entryOrInsert m k v) := by
  unfold entryOrInsert
  cases hm : mlookup m k with
  | some x => simpa using h
  | none =>
    simp only [Option.isSome_none, Bool.false_eq_true, if_false]
    unfold keysNodup at h ⊢
    rw [List.map_append]
    simp only [List.map_cons, List.map_nil]
    rw [List.nodup_append]
    refine ⟨h, List.nodup_singleton _, ?_⟩
    intro a ha hb
    simp at hb
    subst hb
    exact not_mem_keys_of_mlookup_none hm ha

theorem mem_iff_mlookup {T : Type} {m : List (Nat × T)} (h : keysNodup m) (k : Nat) (x : T) :
    (k, x) ∈ m ↔ mlookup m k = some x := by
  induction m with
  | nil => simp [mlookup]
  | cons p ps ih =>
    have hps : keysNodup ps := by
      unfold keysNodup at h ⊢; simpa using (List.nodup_cons.mp (by simpa using h)).2
    have hnk : p.1 ∉ ps.map Prod.fst := by
      unfold keysNodup at h; exact (List.nodup_cons.mp (by simpa using h)).1
    constructor
    · intro hmem
      rcases List.mem_cons.mp hmem with hmem | hmem
      · simp [mlookup, ← hmem]
      · by_cases hk : p.1 = k
        · exfalso
          apply hnk
          rw [hk]
          exact List.mem_map.mpr ⟨(k, x), hmem, rfl⟩
        · simpa [mlookup, hk] using (ih hps).mp hmem
    · intro hl
      by_cases hk : p.1 = k
      · simp [mlookup, hk] at hl
        rcases p with ⟨pk, pv⟩
        simp at hk hl
        simp [hk, hl]
      · simp [mlookup, hk] at hl
        exact List.mem_cons_of_mem _ ((ih hps).mpr hl)

/-! ### Derived views of the state -/

/-- The cached value of compute cell `j` (`value` restricted to compute
handles). -/
def valComp (r : Reactor T) (j : Nat) : Option T :=
  (r.compute_cells.get? j).map (fun c => c.value)

/-- The stored value of input cell `i` (`value` restricted to input
handles). -/
def valIn (r : Reactor T) (i : Nat) : Option T :=
  (r.inputs.get? i).map (fun c => c.value)

theorem value_Input (r : Reactor T) (i : Nat) : r.value (CellId.Input i) = valIn r i := rfl

theorem value_Compute (r : Reactor T) (j : Nat) : r.value (CellId.Compute j) = valComp r j := rfl

/-- Compute cell `j` caches exactly its compute function applied to the
current values of its dependencies (the consistency invariant of §3 of the
spec). -/
def Consistent (r : Reactor T) (j : Nat) : Prop :=
  ∀ cc, r.compute_cells.get? j = some cc →
    cc.value = cc.compute_func (r.values_from_dependencies cc.dependencies)

/-- `Touch r id j`: compute cell `j` is visited by `update_value` started at
compute cell `id`, i.e. `j` is `id` itself or transitively downstream of it. -/
inductive Touch (r : Reactor T) : Nat → Nat → Prop where
  | refl (id : Nat) : Touch r id id
  | head {id d j : Nat} (cc : ComputeCell T) :
      r.compute_cells.get? id = some cc → d ∈ cc.downstream → Touch r d j → Touch r id j

/-- A cell touched starting from some member of the list `ds`. -/
def TouchL (r : Reactor T) (ds : List Nat) (j : Nat) : Prop :=
  ∃ d ∈ ds, Touch r d j

/-- Compute cell `j` is transitively downstream of input `i`. -/
def TouchI (r : Reactor T) (i : Nat) (j : Nat) : Prop :=
  ∃ ic, r.inputs.get? i = some ic ∧ TouchL r ic.downstream j

/-- Two states share the whole cell structure (arena sizes, downstream
lists, dependency lists, compute functions, callback slots) — everything
except cell values and the before-update map. -/
structure Struct (r r' : Reactor T) : Prop where
  input_len : r'.inputs.length = r.inputs.length
  comp_len : r'.compute_cells.length = r.compute_cells.length
  input_down : ∀ i, (r'.inputs.get? i).map InputCell.downstream
      = (r.inputs.get? i).map InputCell.downstream
  comp_down : ∀ j, (r'.compute_cells.get? j).map ComputeCell.downstream
      = (r.compute_cells.get? j).map ComputeCell.downstream
  comp_deps : ∀ j, (r'.compute_cells.get? j).map ComputeCell.dependencies
      = (r.compute_cells.get? j).map ComputeCell.dependencies
  comp_func : ∀ j, (r'.compute_cells.get? j).map ComputeCell.compute_func
      = (r.compute_cells.get? j).map ComputeCell.compute_func
  comp_cbs : ∀ j, (r'.compute_cells.get? j).map ComputeCell.callbacks
      = (r.compute_cells.get? j).map ComputeCell.callbacks

theorem Struct.refl (r : Reactor T) : Struct r r :=
  ⟨rfl, rfl, fun _ => rfl, fun _ => rfl, fun _ => rfl, fun _ => rfl, fun _ => rfl⟩

theorem Struct.trans {r r' r'' : Reactor T} (h : Struct r r') (h' : Struct r' r'') :
    Struct r r'' :=
  ⟨h'.input_len.trans h.input_len, h'.comp_len.trans h.comp_len,
   fun i => (h'.input_down i).trans (h.input_down i),
   fun j => (h'.comp_down j).trans (h.comp_down j),
   fun j => (h'.comp_deps j).trans (h.comp_deps j),
   fun j => (h'.comp_func j).trans (h.comp_func j),
   fun j => (h'.comp_cbs j).trans (h.comp_cbs j)⟩

theorem Struct.symm {r r' : Reactor T} (h : Struct r r') : Struct r' r :=
  ⟨h.input_len.symm, h.comp_len.symm, fun i => (h.input_down i).symm,
   fun j => (h.comp_down j).symm, fun j => (h.comp_deps j).symm,
   fun j => (h.comp_func j).symm, fun j => (h.comp_cbs j).symm⟩

/-- Transport a compute cell across `Struct`: same slot, same structural
fields (the value may differ). -/
theorem Struct.comp_get {r r' : Reactor T} (h : Struct r r') {j : Nat} {cc : ComputeCell T}
    (hj : r.compute_cells.get? j = some cc) :
    ∃ cc', r'.compute_cells.get? j = some cc' ∧ cc'.downstream = cc.downstream ∧
      cc'.dependencies = cc.dependencies ∧ cc'.compute_func = cc.compute_func ∧
      cc'.callbacks = cc.callbacks := by
  cases hj' : r'.compute_cells.get? j with
  | none =>
    exfalso
    have := h.comp_down j
    rw [hj, hj'] at this
    simp at this
  | some cc' =>
    refine ⟨cc', rfl, ?_, ?_, ?_, ?_⟩
    · have := h.comp_down j; rw [hj, hj'] at this; simpa using this
    · have := h.comp_deps j; rw [hj, hj'] at this; simpa using this
    · have := h.comp_func j; rw [hj, hj'] at this; simpa using this
    · have := h.comp_cbs j; rw [hj, hj'] at this; simpa using this

/-- Transport an input cell across `Struct`. -/
theorem Struct.input_get {r r' : Reactor T} (h : Struct r r') {i : Nat} {ic : InputCell T}
    (hi : r.inputs.get? i = some ic) :
    ∃ ic', r'.inputs.get? i = some ic' ∧ ic'.downstream = ic.downstream := by
  cases hi' : r'.inputs.get? i with
  | none =>
    exfalso
    have := h.input_down i
    rw [hi, hi'] at this
    simp at this
  | some ic' =>
    refine ⟨ic', rfl, ?_⟩
    have := h.input_down i; rw [hi, hi'] at this; simpa using this

theorem Touch.transport {r r' : Reactor T} (h : Struct r r') {id j : Nat}
    (ht : Touch r id j) : Touch r' id j := by
  induction ht with
  | refl id => exact Touch.refl id
  | head cc hget hmem _ ih =>
    obtain ⟨cc', hget', hdown, _, _, _⟩ := h.comp_get hget
    exact Touch.head cc' hget' (hdown ▸ hmem) ih

theorem TouchL.transportL {r r' : Reactor T} (h : Struct r r') {ds : List Nat} {j : Nat}
    (ht : TouchL r ds j) : TouchL r' ds j := by
  obtain ⟨d, hd, ht⟩ := ht
  exact ⟨d, hd, ht.transport h⟩

/-- Structure agreement without the callback slots and values: exactly what
`WfE` and the consistency invariant depend on.  `add_callback` and
`remove_callback` preserve this but not the full `Struct`. -/
structure StructW (r r' : Reactor T) : Prop where
  input_len : r'.inputs.length = r.inputs.length
  comp_len : r'.compute_cells.length = r.compute_cells.length
  input_down : ∀ i, (r'.inputs.get? i).map InputCell.downstream
      = (r.inputs.get? i).map InputCell.downstream
  comp_down : ∀ j, (r'.compute_cells.get? j).map ComputeCell.downstream
      = (r.compute_cells.get? j).map ComputeCell.downstream
  comp_deps : ∀ j, (r'.compute_cells.get? j).map ComputeCell.dependencies
      = (r.compute_cells.get? j).map ComputeCell.dependencies
  comp_func : ∀ j, (r'.compute_cells.get? j).map ComputeCell.compute_func
      = (r.compute_cells.get? j).map ComputeCell.compute_func

theorem Struct.toW {r r' : Reactor T} (h : Struct r r') : StructW r r' :=
  ⟨h.input_len, h.comp_len, h.input_down, h.comp_down, h.comp_deps, h.comp_func⟩

theorem StructW.symmW {r r' : Reactor T} (h : StructW r r') : StructW r' r :=
  ⟨h.input_len.symm, h.comp_len.symm, fun i => (h.input_down i).symm,
   fun j => (h.comp_down j).symm, fun j => (h.comp_deps j).symm,
   fun j => (h.comp_func j).symm⟩

theorem StructW.comp_getW {r r' : Reactor T} (h : StructW r r') {j : Nat} {cc : ComputeCell T}
    (hj : r.compute_cells.get? j = some cc) :
    ∃ cc', r'.compute_cells.get? j = some cc' ∧ cc'.downstream = cc.downstream ∧
      cc'.dependencies = cc.dependencies ∧ cc'.compute_func = cc.compute_func := by
  cases hj' : r'.compute_cells.get? j with
  | none =>
    exfalso
    have := h.comp_down j
    rw [hj, hj'] at this
    simp at this
  | some cc' =>
    refine ⟨cc', rfl, ?_, ?_, ?_⟩
    · have := h.comp_down j; rw [hj, hj'] at this; simpa using this
    · have := h.comp_deps j; rw [hj, hj'] at this; simpa using this
    · have := h.comp_func j; rw [hj, hj'] at this; simpa using this

theorem StructW.input_getW {r r' : Reactor T} (h : StructW r r') {i : Nat} {ic : InputCell T}
    (hi : r.inputs.get? i = some ic) :
    ∃ ic', r'.inputs.get? i = some ic' ∧ ic'.downstream = ic.downstream := by
  cases hi' : r'.inputs.get? i with
  | none =>
    exfalso
    have := h.input_down i
    rw [hi, hi'] at this
    simp at this
  | some ic' =>
    refine ⟨ic', rfl, ?_⟩
    have := h.input_down i; rw [hi, hi'] at this; simpa using this

/-- Structural well-formedness of the dependency graph, maintained by every
public operation: downstream edges point strictly forward (to later-created,
existing compute cells), dependency handles point strictly backward to
existing cells, and every dependency edge has a matching downstream edge. -/
structure WfE (r : Reactor T) : Prop where
  input_down_lt : ∀ i ic, r.inputs.get? i = some ic →
      ∀ d ∈ ic.downstream, d < r.compute_cells.length
  comp_down_lt : ∀ j cc, r.compute_cells.get? j = some cc →
      ∀ d ∈ cc.downstream, j < d ∧ d < r.compute_cells.length
  deps_back : ∀ j cc, r.compute_cells.get? j = some cc →
      ∀ m, CellId.Compute m ∈ cc.dependencies → m < j
  deps_in : ∀ j cc, r.compute_cells.get? j = some cc →
      ∀ i, CellId.Input i ∈ cc.dependencies → i < r.inputs.length
  complete_in : ∀ j cc, r.compute_cells.get? j = some cc →
      ∀ i, CellId.Input i ∈ cc.dependencies → ∀ ic, r.inputs.get? i = some ic →
        j ∈ ic.downstream
  complete_comp : ∀ j cc, r.compute_cells.get? j = some cc →
      ∀ m, CellId.Compute m ∈ cc.dependencies → ∀ mc, r.compute_cells.get? m = some mc →
        j ∈ mc.downstream

theorem WfE.transportW {r r' : Reactor T} (hs : StructW r r') (w : WfE r) : WfE r' := by
  constructor
  · intro i ic' hi' d hd
    obtain ⟨ic, hi, hdown⟩ := hs.symmW.input_getW hi'
    rw [hs.comp_len]
    exact w.input_down_lt i ic hi d (hdown ▸ hd)
  · intro j cc' hj' d hd
    obtain ⟨cc, hj, hdown, _, _⟩ := hs.symmW.comp_getW hj'
    rw [hs.comp_len]
    exact w.comp_down_lt j cc hj d (hdown ▸ hd)
  · intro j cc' hj' m hm
    obtain ⟨cc, hj, _, hdeps, _⟩ := hs.symmW.comp_getW hj'
    exact w.deps_back j cc hj m (hdeps ▸ hm)
  · intro j cc' hj' i hi
    obtain ⟨cc, hj, _, hdeps, _⟩ := hs.symmW.comp_getW hj'
    rw [hs.input_len]
    exact w.deps_in j cc hj i (hdeps ▸ hi)
  · intro j cc' hj' i hi ic' hic'
    obtain ⟨cc, hj, _, hdeps, _⟩ := hs.symmW.comp_getW hj'
    obtain ⟨ic, hic, hdown⟩ := hs.symmW.input_getW hic'
    rw [← hdown]
    exact w.complete_in j cc hj i (hdeps ▸ hi) ic hic
  · intro j cc' hj' m hm mc' hmc'
    obtain ⟨cc, hj, _, hdeps, _⟩ := hs.symmW.comp_getW hj'
    obtain ⟨mc, hmc, hdownm, _, _⟩ := hs.symmW.comp_getW hmc'
    rw [← hdownm]
    exact w.complete_comp j cc hj m (hdeps ▸ hm) mc hmc

theorem WfE.transportE {r r' : Reactor T} (hs : Struct r r') (w : WfE r) : WfE r' :=
  w.transportW hs.toW

/-- Downstream edges increase: a touched cell has an index at least that of
the start cell. -/
theorem Touch.le {r : Reactor T} (w : WfE r) {id j : Nat} (h : Touch r id j) : id ≤ j := by
  induction h with
  | refl id => exact Nat.le_refl id
  | head cc hget hmem _ ih =>
    exact Nat.le_of_lt (Nat.lt_of_lt_of_le (w.comp_down_lt _ _ hget _ hmem).1 ih)

theorem Touch.lt_len {r : Reactor T} (w : WfE r) {id j : Nat} (h : Touch r id j)
    (hid : id < r.compute_cells.length) : j < r.compute_cells.length := by
  induction h with
  | refl id => exact hid
  | head cc hget hmem _ ih => exact ih (w.comp_down_lt _ _ hget _ hmem).2

theorem Touch.tail {r : Reactor T} {id j k : Nat} (h : Touch r id j) (cc : ComputeCell T)
    (hget : r.compute_cells.get? j = some cc) (hk : k ∈ cc.downstream) : Touch r id k := by
  induction h with
  | refl id => exact Touch.head cc hget hk (Touch.refl k)
  | head cc' hget' hmem _ ih => exact Touch.head cc' hget' hmem (ih hget)

theorem touch_cases {r : Reactor T} {id j : Nat} (h : Touch r id j) :
    j = id ∨ ∃ cc, r.compute_cells.get? id = some cc ∧ TouchL r cc.downstream j := by
  cases h with
  | refl => exact Or.inl rfl
  | head cc hget hmem ht => exact Or.inr ⟨cc, hget, _, hmem, ht⟩

/-! ### One visit: lemmas about `stepState` -/

theorem stepState_inputs (r : Reactor T) (id : Nat) (cell : ComputeCell T) (u : CellId) (uv : T) :
    (r.stepState id cell u uv).inputs = r.inputs := rfl

theorem stepState_before (r : Reactor T) (id : Nat) (cell : ComputeCell T) (u : CellId) (uv : T) :
    (r.stepState id cell u uv).values_before_update
      = entryOrInsert r.values_before_update id cell.value := rfl

theorem stepState_compute (r : Reactor T) (id : Nat) (cell : ComputeCell T) (u : CellId) (uv : T) :
    (r.stepState id cell u uv).compute_cells
      = listModify r.compute_cells id (fun c => { c with value := r.stepValue cell u uv }) := rfl

theorem valComp_stepState_self {r : Reactor T} {id : Nat} {cell : ComputeCell T}
    (h : r.compute_cells.get? id = some cell) (u : CellId) (uv : T) :
    valComp (r.stepState id cell u uv) id = some (r.stepValue cell u uv) := by
  unfold valComp
  rw [stepState_compute, get?_listModify_self, h]
  rfl

theorem valComp_stepState_ne (r : Reactor T) (id : Nat) (cell : ComputeCell T) (u : CellId)
    (uv : T) {j : Nat} (h : j ≠ id) :
    valComp (r.stepState id cell u uv) j = valComp r j := by
  unfold valComp
  rw [stepState_compute, get?_listModify_ne _ _ _ _ h]

theorem valIn_stepState (r : Reactor T) (id : Nat) (cell : ComputeCell T) (u : CellId) (uv : T)
    (i : Nat) : valIn (r.stepState id cell u uv) i = valIn r i := rfl

theorem map_proj_listModify {α β : Type} (l : List α) (i : Nat)
    (f : α → α) (proj : α → β)
    (hf : ∀ c, proj (f c) = proj c) (j : Nat) :
    ((listModify l i f).get? j).map proj = (l.get? j).map proj := by
  by_cases hj : j = i
  · rw [hj, get?_listModify_self]
    cases hc : l.get? i with
    | none => rfl
    | some c => simp [hf]
  · rw [get?_listModify_ne _ _ _ _ hj]

theorem stepState_struct (r : Reactor T) (id : Nat) (cell : ComputeCell T) (u : CellId) (uv : T) :
    Struct r (r.stepState id cell u uv) := by
  have hmod : ∀ {β : Type} (proj : ComputeCell T → β),
      (∀ c : ComputeCell T, proj { c with value := r.stepValue cell u uv } = proj c) →
      ∀ j, ((r.stepState id cell u uv).compute_cells.get? j).map proj
        = (r.compute_cells.get? j).map proj := by
    intro β proj hproj j
    rw [stepState_compute]
    exact map_proj_listModify _ _ _ _ hproj j
  exact ⟨rfl, listModify_length _ _ _, fun i => rfl,
    hmod ComputeCell.downstream (fun c => rfl),
    hmod ComputeCell.dependencies (fun c => rfl),
    hmod ComputeCell.compute_func (fun c => rfl),
    hmod ComputeCell.callbacks (fun c => rfl)⟩

/-! ### Unfolding the fueled propagation -/

theorem update_value_zero (r : Reactor T) (id : Nat) (u : CellId) (uv : T) :
    Reactor.updateValueU 0 r id u uv = none := rfl

theorem update_value_succ (fuel : Nat) (r : Reactor T) (id : Nat) (u : CellId) (uv : T) :
    Reactor.updateValueU (fuel + 1) r id u uv =
      match r.compute_cells.get? id with
      | none => none
      | some cell => Reactor.updateDownstreamU fuel (r.stepState id cell u uv) cell.downstream
          (CellId.Compute id) (r.stepValue cell u uv) := by
  cases h : r.compute_cells.get? id <;>
    simp only [Reactor.updateValueU, Reactor.updateDownstreamU, h]

theorem update_value_succ_some {fuel : Nat} {r : Reactor T} {id : Nat} {u : CellId} {uv : T}
    {cell : ComputeCell T} (h : r.compute_cells.get? id = some cell) :
    Reactor.updateValueU (fuel + 1) r id u uv =
      Reactor.updateDownstreamU fuel (r.stepState id cell u uv) cell.downstream
        (CellId.Compute id) (r.stepValue cell u uv) := by
  rw [update_value_succ, h]

theorem update_value_some_get {fuel : Nat} {r : Reactor T} {id : Nat} {u : CellId} {uv : T}
    {r' : Reactor T} (h : Reactor.updateValueU fuel r id u uv = some r') :
    ∃ cell, r.compute_cells.get? id = some cell := by
  cases fuel with
  | zero => rw [update_value_zero] at h; exact Option.noConfusion h
  | succ f =>
    rw [update_value_succ] at h
    cases hc : r.compute_cells.get? id with
    | none => rw [hc] at h; exact absurd h (by simp)
    | some cell => exact ⟨cell, rfl⟩

theorem updateDownstream_nil (fuel : Nat) (r : Reactor T) (u : CellId) (v : T) :
    Reactor.updateDownstreamU fuel r [] u v = some r := rfl

theorem foldl_bind_none (fuel : Nat) (ds : List Nat) (u : CellId) (v : T) :
    ds.foldl (fun acc d => acc.bind (fun s => Reactor.updateValueU fuel s d u v))
      (none : Option (Reactor T)) = none := by
  induction ds with
  | nil => rfl
  | cons d ds ih => simpa using ih

theorem updateDownstream_cons (fuel : Nat) (r : Reactor T) (d : Nat) (ds : List Nat)
    (u : CellId) (v : T) :
    Reactor.updateDownstreamU fuel r (d :: ds) u v =
      (Reactor.updateValueU fuel r d u v).bind
        (fun s => Reactor.updateDownstreamU fuel s ds u v) := by
  unfold Reactor.updateDownstreamU
  rw [List.foldl_cons]
  have hb : (some r).bind (fun s => Reactor.updateValueU fuel s d u v)
      = Reactor.updateValueU fuel r d u v := rfl
  rw [hb]
  cases h : Reactor.updateValueU fuel r d u v with
  | none => rw [foldl_bind_none]; rfl
  | some s => rfl

/-! ### Structure preservation through a propagation pass -/

/-- The propagation step preserves arena sizes, downstream lists, dependency
lists, compute functions, callback slots, all input values, and key
distinctness of the before-update map. -/
def UpdStructP (T : Type) [DecidableEq T] [Inhabited T] (fuel : Nat) : Prop :=
  ∀ (r : Reactor T) (id : Nat) (u : CellId) (uv : T) (r' : Reactor T),
    Reactor.updateValueU fuel r id u uv = some r' →
    Struct r r' ∧ (∀ i, valIn r' i = valIn r i) ∧
      (keysNodup r.values_before_update → keysNodup r'.values_before_update)

/-- `UpdStructP` for the loop over a downstream list. -/
def FoldStructP (T : Type) [DecidableEq T] [Inhabited T] (fuel : Nat) : Prop :=
  ∀ (r : Reactor T) (ds : List Nat) (u : CellId) (v : T) (r' : Reactor T),
    Reactor.updateDownstreamU fuel r ds u v = some r' →
    Struct r r' ∧ (∀ i, valIn r' i = valIn r i) ∧
      (keysNodup r.values_before_update → keysNodup r'.values_before_update)

theorem foldStruct_of_updStruct {fuel : Nat} (h : UpdStructP T fuel) : FoldStructP T fuel := by
  intro r ds
  induction ds generalizing r with
  | nil =>
    intro u v r' hr
    rw [updateDownstream_nil] at hr
    cases hr
    exact ⟨Struct.refl r, fun _ => rfl, fun hh => hh⟩
  | cons d ds ih =>
    intro u v r' hr
    rw [updateDownstream_cons] at hr
    cases h1 : Reactor.updateValueU fuel r d u v with
    | none => rw [h1, Option.none_bind] at hr; exact Option.noConfusion hr
    | some r1 =>
      rw [h1, Option.some_bind] at hr
      obtain ⟨hs1, hv1, hn1⟩ := h r d u v r1 h1
      obtain ⟨hs2, hv2, hn2⟩ := ih r1 u v r' hr
      exact ⟨hs1.trans hs2, fun i => (hv2 i).trans (hv1 i), fun hh => hn2 (hn1 hh)⟩

theorem updStruct (fuel : Nat) : UpdStructP T fuel := by
  induction fuel with
  | zero =>
    intro r id u uv r' h
    rw [update_value_zero] at h
    exact Option.noConfusion h
  | succ f ih =>
    intro r id u uv r' h
    obtain ⟨cell, hc⟩ := update_value_some_get h
    rw [update_value_succ_some hc] at h
    obtain ⟨hs, hv, hn⟩ := foldStruct_of_updStruct ih _ _ _ _ _ h
    refine ⟨(stepState_struct r id cell u uv).trans hs, fun i => (hv i).trans rfl, fun hh => ?_⟩
    apply hn
    rw [stepState_before]
    exact keysNodup_entryOrInsert _ _ hh

/-- Structure preservation, packaged for direct use on `update_value`. -/
theorem update_value_struct {fuel : Nat} {r : Reactor T} {id : Nat} {u : CellId} {uv : T}
    {r' : Reactor T} (h : Reactor.updateValueU fuel r id u uv = some r') :
    Struct r r' ∧ (∀ i, valIn r' i = valIn r i) ∧
      (keysNodup r.values_before_update → keysNodup r'.values_before_update) :=
  updStruct fuel r id u uv r' h

/-- Structure preservation, packaged for direct use on `updateDownstream`. -/
theorem updateDownstream_struct {fuel : Nat} {r : Reactor T} {ds : List Nat} {u : CellId}
    {v : T} {r' : Reactor T} (h : Reactor.updateDownstreamU fuel r ds u v = some r') :
    Struct r r' ∧ (∀ i, valIn r' i = valIn r i) ∧
      (keysNodup r.values_before_update → keysNodup r'.values_before_update) :=
  foldStruct_of_updStruct (updStruct fuel) r ds u v r' h

/-! ### Values of untouched cells are preserved -/

/-- `update_value` leaves every compute cell it does not touch unchanged. -/
def UpdValP (T : Type) [DecidableEq T] [Inhabited T] (fuel : Nat) : Prop :=
  ∀ (r : Reactor T) (id : Nat) (u : CellId) (uv : T) (r' : Reactor T),
    Reactor.updateValueU fuel r id u uv = some r' →
    ∀ j, ¬ Touch r id j → valComp r' j = valComp r j

/-- `UpdValP` for the loop over a downstream list. -/
def FoldValP (T : Type) [DecidableEq T] [Inhabited T] (fuel : Nat) : Prop :=
  ∀ (r : Reactor T) (ds : List Nat) (u : CellId) (v : T) (r' : Reactor T),
    Reactor.updateDownstreamU fuel r ds u v = some r' →
    ∀ j, ¬ TouchL r ds j → valComp r' j = valComp r j

theorem foldVal_of_updVal {fuel : Nat} (h : UpdValP T fuel) : FoldValP T fuel := by
  intro r ds
  induction ds generalizing r with
  | nil =>
    intro u v r' hr j _
    rw [updateDownstream_nil] at hr
    cases hr
    rfl
  | cons d ds ih =>
    intro u v r' hr j hj
    rw [updateDownstream_cons] at hr
    cases h1 : Reactor.updateValueU fuel r d u v with
    | none => rw [h1, Option.none_bind] at hr; exact Option.noConfusion hr
    | some r1 =>
      rw [h1, Option.some_bind] at hr
      have hS1 : Struct r r1 := (update_value_struct h1).1
      have hjd : ¬ Touch r d j := fun ht => hj ⟨d, List.mem_cons_self d ds, ht⟩
      have hjds : ¬ TouchL r1 ds j := fun ht => by
        obtain ⟨d', hd', ht'⟩ := ht.transportL hS1.symm
        exact hj ⟨d', List.mem_cons_of_mem d hd', ht'⟩
      calc valComp r' j = valComp r1 j := ih r1 u v r' hr j hjds
        _ = valComp r j := h r d u v r1 h1 j hjd

theorem updVal (fuel : Nat) : UpdValP T fuel := by
  induction fuel with
  | zero => intro r id u uv r' h; rw [update_value_zero] at h; exact Option.noConfusion h
  | succ f ih =>
    intro r id u uv r' h j hj
    obtain ⟨cell, hc⟩ := update_value_some_get h
    rw [update_value_succ_some hc] at h
    have hS0 : Struct r (r.stepState id cell u uv) := stepState_struct r id cell u uv
    have hjid : j ≠ id := fun hh => hj (by rw [hh]; exact Touch.refl id)
    have hjds : ¬ TouchL (r.stepState id cell u uv) cell.downstream j := fun ht => by
      obtain ⟨d', hd', ht'⟩ := ht.transportL hS0.symm
      exact hj (Touch.head cell hc hd' ht')
    calc valComp r' j = valComp (r.stepState id cell u uv) j :=
          foldVal_of_updVal ih _ _ _ _ _ h j hjds
      _ = valComp r j := valComp_stepState_ne r id cell u uv hjid

/-- Untouched values preserved, packaged for `update_value`. -/
theorem update_value_val {fuel : Nat} {r : Reactor T} {id : Nat} {u : CellId} {uv : T}
    {r' : Reactor T} (h : Reactor.updateValueU fuel r id u uv = some r') {j : Nat}
    (hj : ¬ Touch r id j) : valComp r' j = valComp r j :=
  updVal fuel r id u uv r' h j hj

/-- Untouched values preserved, packaged for `updateDownstream`. -/
theorem updateDownstream_val {fuel : Nat} {r : Reactor T} {ds : List Nat} {u : CellId} {v : T}
    {r' : Reactor T} (h : Reactor.updateDownstreamU fuel r ds u v = some r') {j : Nat}
    (hj : ¬ TouchL r ds j) : valComp r' j = valComp r j :=
  foldVal_of_updVal (updVal fuel) r ds u v r' h j hj

/-! ### The before-update map records exactly the touched cells, first visit
wins -/

/-- Specification of the before-update map across one (partial) propagation
with touched set `tch`: touched cells exist; existing entries are never
overwritten; a touched cell with no prior entry gets its pre-pass value; an
untouched cell with no prior entry stays absent. -/
def BeforeSpec (r r' : Reactor T) (tch : Nat → Prop) : Prop :=
  ∀ k, (tch k → (valComp r k).isSome = true) ∧
    (∀ x, mlookup r.values_before_update k = some x →
      mlookup r'.values_before_update k = some x) ∧
    (mlookup r.values_before_update k = none → tch k →
      mlookup r'.values_before_update k = valComp r k) ∧
    (mlookup r.values_before_update k = none → ¬ tch k →
      mlookup r'.values_before_update k = none)

theorem valComp_isSome_transport {r r' : Reactor T} (hs : Struct r r') {k : Nat}
    (h : (valComp r k).isSome = true) : (valComp r' k).isSome = true := by
  unfold valComp at h ⊢
  cases hg : r.compute_cells.get? k with
  | none => rw [hg] at h; simp at h
  | some c =>
    obtain ⟨c', hg', _, _, _, _⟩ := hs.comp_get hg
    rw [hg']
    rfl

def UpdBeforeP (T : Type) [DecidableEq T] [Inhabited T] (fuel : Nat) : Prop :=
  ∀ (r : Reactor T) (id : Nat) (u : CellId) (uv : T) (r' : Reactor T),
    Reactor.updateValueU fuel r id u uv = some r' → BeforeSpec r r' (Touch r id)

def FoldBeforeP (T : Type) [DecidableEq T] [Inhabited T] (fuel : Nat) : Prop :=
  ∀ (r : Reactor T) (ds : List Nat) (u : CellId) (v : T) (r' : Reactor T),
    Reactor.updateDownstreamU fuel r ds u v = some r' → BeforeSpec r r' (TouchL r ds)

theorem foldBefore_of_updBefore {fuel : Nat} (h : UpdBeforeP T fuel) : FoldBeforeP T fuel := by
  intro r ds
  induction ds generalizing r with
  | nil =>
    intro u v r' hr
    rw [updateDownstream_nil] at hr
    cases hr
    intro k
    refine ⟨fun ht => ?_, fun x hx => hx, fun _ ht => ?_, fun hn _ => hn⟩
    · obtain ⟨d, hd, _⟩ := ht; exact absurd hd (List.not_mem_nil d)
    · obtain ⟨d, hd, _⟩ := ht; exact absurd hd (List.not_mem_nil d)
  | cons d ds ih =>
    intro u v r' hr
    rw [updateDownstream_cons] at hr
    cases h1 : Reactor.updateValueU fuel r d u v with
    | none => rw [h1, Option.none_bind] at hr; exact Option.noConfusion hr
    | some r1 =>
      rw [h1, Option.some_bind] at hr
      have hS1 : Struct r r1 := (update_value_struct h1).1
      have UB : BeforeSpec r r1 (Touch r d) := h r d u v r1 h1
      have IB : BeforeSpec r1 r' (TouchL r1 ds) := ih r1 u v r' hr
      intro k
      refine ⟨?_, ?_, ?_, ?_⟩
      · rintro ⟨d', hd', ht⟩
        rcases List.mem_cons.mp hd' with hdd | hdd
        · exact (UB k).1 (hdd ▸ ht)
        · exact valComp_isSome_transport hS1.symm
            ((IB k).1 (TouchL.transportL hS1 ⟨d', hdd, ht⟩))
      · intro x hx
        exact (IB k).2.1 x ((UB k).2.1 x hx)
      · intro habs htch
        by_cases htd : Touch r d k
        · have h2 := (UB k).2.2.1 habs htd
          obtain ⟨x, hx⟩ := Option.isSome_iff_exists.mp ((UB k).1 htd)
          rw [hx] at h2 ⊢
          exact (IB k).2.1 x h2
        · obtain ⟨d', hd', ht⟩ := htch
          rcases List.mem_cons.mp hd' with hdd | hdd
          · exact absurd (hdd ▸ ht) htd
          · have h3 : mlookup r1.values_before_update k = none := (UB k).2.2.2 habs htd
            have h4 := (IB k).2.2.1 h3 (TouchL.transportL hS1 ⟨d', hdd, ht⟩)
            rw [h4]
            exact update_value_val h1 htd
      · intro habs hnt
        have htd : ¬ Touch r d k := fun ht => hnt ⟨d, List.mem_cons_self d ds, ht⟩
        have h3 : mlookup r1.values_before_update k = none := (UB k).2.2.2 habs htd
        refine (IB k).2.2.2 h3 (fun ht => ?_)
        obtain ⟨d', hd', ht'⟩ := ht.transportL hS1.symm
        exact hnt ⟨d', List.mem_cons_of_mem d hd', ht'⟩

theorem updBefore (fuel : Nat) : UpdBeforeP T fuel := by
  induction fuel with
  | zero => intro r id u uv r' h; rw [update_value_zero] at h; exact Option.noConfusion h
  | succ f ih =>
    intro r id u uv r' h
    obtain ⟨cell, hc⟩ := update_value_some_get h
    rw [update_value_succ_some hc] at h
    have hS0 : Struct r (r.stepState id cell u uv) := stepState_struct r id cell u uv
    have FB : BeforeSpec (r.stepState id cell u uv) r'
        (TouchL (r.stepState id cell u uv) cell.downstream) :=
      foldBefore_of_updBefore ih _ _ _ _ _ h
    intro k
    have hvid : valComp r id = some cell.value := by unfold valComp; rw [hc]; rfl
    refine ⟨?_, ?_, ?_, ?_⟩
    · intro ht
      rcases touch_cases ht with hk | ⟨cc, hcc, htl⟩
      · rw [hk, hvid]; rfl
      · rw [hc] at hcc
        cases hcc
        have h5 := (FB k).1 (TouchL.transportL hS0 htl)
        by_cases hk : k = id
        · rw [hk, hvid]; rfl
        · rw [← valComp_stepState_ne r id cell u uv hk]; exact h5
    · intro x hx
      apply (FB k).2.1 x
      rw [stepState_before]
      by_cases hk : k = id
      · rw [hk] at hx ⊢; rw [entryOrInsert_of_some cell.value hx]; exact hx
      · rw [mlookup_entryOrInsert_ne _ _ _ _ hk]; exact hx
    · intro habs htch
      by_cases hk : k = id
      · subst hk
        have hstep : mlookup (r.stepState k cell u uv).values_before_update k
            = some cell.value := by
          rw [stepState_before, mlookup_entryOrInsert_self, habs]
          rfl
        rw [hvid]
        exact (FB k).2.1 cell.value hstep
      · rcases touch_cases htch with hkk | ⟨cc, hcc, htl⟩
        · exact absurd hkk hk
        · rw [hc] at hcc
          cases hcc
          have hstep : mlookup (r.stepState id cell u uv).values_before_update k = none := by
            rw [stepState_before, mlookup_entryOrInsert_ne _ _ _ _ hk]; exact habs
          have h6 := (FB k).2.2.1 hstep (TouchL.transportL hS0 htl)
          rw [h6]
          exact valComp_stepState_ne r id cell u uv hk
    · intro habs hnt
      have hk : k ≠ id := fun hh => hnt (by rw [hh]; exact Touch.refl id)
      have hstep : mlookup (r.stepState id cell u uv).values_before_update k = none := by
        rw [stepState_before, mlookup_entryOrInsert_ne _ _ _ _ hk]; exact habs
      refine (FB k).2.2.2 hstep (fun ht => ?_)
      obtain ⟨d', hd', ht'⟩ := ht.transportL hS0.symm
      exact hnt (Touch.head cell hc hd' ht')

/-- Before-update map specification, packaged for `update_value`. -/
theorem update_value_before {fuel : Nat} {r : Reactor T} {id : Nat} {u : CellId} {uv : T}
    {r' : Reactor T} (h : Reactor.updateValueU fuel r id u uv = some r') :
    BeforeSpec r r' (Touch r id) :=
  updBefore fuel r id u uv r' h

/-- Before-update map specification, packaged for `updateDownstream`. -/
theorem updateDownstream_before {fuel : Nat} {r : Reactor T} {ds : List Nat} {u : CellId}
    {v : T} {r' : Reactor T} (h : Reactor.updateDownstreamU fuel r ds u v = some r') :
    BeforeSpec r r' (TouchL r ds) :=
  foldBefore_of_updBefore (updBefore fuel) r ds u v r' h

/-! ### Touched cells end the pass consistent -/

theorem vfd_congr {r r' : Reactor T} {deps : List CellId}
    (h : ∀ cid ∈ deps, r'.value cid = r.value cid) :
    r'.values_from_dependencies deps = r.values_from_dependencies deps := by
  unfold Reactor.values_from_dependencies
  exact List.map_congr_left (fun cid hcid => by rw [h cid hcid])

/-- A cell untouched by a downstream loop, consistent before it, is still
consistent after it: none of its dependencies can have been touched, or the
loop would have reached the cell itself through the (complete) downstream
edges. -/
theorem fold_preserves_consistent {fuel : Nat} {r : Reactor T} {ds : List Nat} {u : CellId}
    {v : T} {r' : Reactor T} (w : WfE r)
    (h : Reactor.updateDownstreamU fuel r ds u v = some r') {j : Nat}
    (hnt : ¬ TouchL r ds j) (hcons : Consistent r j) : Consistent r' j := by
  intro cc' hcc'
  have hS := (updateDownstream_struct h).1
  obtain ⟨cc, hccr, hdown, hdeps, hfunc, hcbs⟩ := hS.symm.comp_get hcc'
  have hval : valComp r' j = valComp r j := updateDownstream_val h hnt
  have hval' : cc'.value = cc.value := by
    unfold valComp at hval
    rw [hcc', hccr] at hval
    simpa using hval
  have hdepval : ∀ cid ∈ cc.dependencies, r'.value cid = r.value cid := by
    intro cid hcid
    cases cid with
    | Input i =>
      rw [value_Input, value_Input]
      exact (updateDownstream_struct h).2.1 i
    | Compute m =>
      have hm : ¬ TouchL r ds m := by
        intro htm
        obtain ⟨x, hx⟩ := Option.isSome_iff_exists.mp ((updateDownstream_before h m).1 htm)
        have hmc : ∃ mc, r.compute_cells.get? m = some mc := by
          unfold valComp at hx
          cases hg : r.compute_cells.get? m with
          | none => rw [hg] at hx; exact absurd hx (by simp)
          | some mc => exact ⟨mc, rfl⟩
        obtain ⟨mc, hmc⟩ := hmc
        have hjmem : j ∈ mc.downstream := w.complete_comp j cc hccr m hcid mc hmc
        obtain ⟨d', hd', ht'⟩ := htm
        exact hnt ⟨d', hd', ht'.tail mc hmc hjmem⟩
      rw [value_Compute, value_Compute]
      exact updateDownstream_val h hm
  rw [hval', ← hfunc, ← hdeps, vfd_congr hdepval]
  exact hcons cc hccr

/-- Every cell touched by `update_value` is consistent when the call
returns: its last visit recomputes it from dependency values that no later
visit changes. -/
def UpdConsP (T : Type) [DecidableEq T] [Inhabited T] (fuel : Nat) : Prop :=
  ∀ (r : Reactor T) (id : Nat) (u : CellId) (uv : T) (r' : Reactor T),
    WfE r → r.value u = some uv →
    Reactor.updateValueU fuel r id u uv = some r' →
    ∀ j, Touch r id j → Consistent r' j

/-- `UpdConsP` for the loop over a downstream list; the extra hypothesis
says the upstream cell is never itself touched by the loop (it is the
still-borrowed parent, strictly earlier than everything reached). -/
def FoldConsP (T : Type) [DecidableEq T] [Inhabited T] (fuel : Nat) : Prop :=
  ∀ (r : Reactor T) (ds : List Nat) (u : CellId) (v : T) (r' : Reactor T),
    WfE r → r.value u = some v →
    (∀ d ∈ ds, ∀ j, Touch r d j → u ≠ CellId.Compute j) →
    Reactor.updateDownstreamU fuel r ds u v = some r' →
    ∀ j, TouchL r ds j → Consistent r' j

theorem foldCons_of_updCons {fuel : Nat} (h : UpdConsP T fuel) : FoldConsP T fuel := by
  intro r ds
  induction ds generalizing r with
  | nil =>
    intro u v r' _ _ _ hr j htl
    obtain ⟨d, hd, _⟩ := htl
    exact absurd hd (List.not_mem_nil d)
  | cons d ds ih =>
    intro u v r' hW hu hup hr j htl
    rw [updateDownstream_cons] at hr
    cases h1 : Reactor.updateValueU fuel r d u v with
    | none => rw [h1, Option.none_bind] at hr; exact Option.noConfusion hr
    | some r1 =>
      rw [h1, Option.some_bind] at hr
      have hS1 : Struct r r1 := (update_value_struct h1).1
      have hW1 : WfE r1 := hW.transportE hS1
      have hu1 : r1.value u = some v := by
        cases u with
        | Input i =>
          rw [value_Input] at hu ⊢
          rw [(update_value_struct h1).2.1 i]
          exact hu
        | Compute p =>
          have hnp : ¬ Touch r d p :=
            fun ht => hup d (List.mem_cons_self d ds) p ht rfl
          rw [value_Compute] at hu ⊢
          rw [update_value_val h1 hnp]
          exact hu
      have hup1 : ∀ d' ∈ ds, ∀ j', Touch r1 d' j' → u ≠ CellId.Compute j' :=
        fun d' hd' j' ht => hup d' (List.mem_cons_of_mem d hd') j' (ht.transport hS1.symm)
      by_cases hds : TouchL r ds j
      · exact ih r1 u v r' hW1 hu1 hup1 hr j (hds.transportL hS1)
      · obtain ⟨d', hd', ht⟩ := htl
        rcases List.mem_cons.mp hd' with hdd | hdd
        · have hcons1 : Consistent r1 j := h r d u v r1 hW hu h1 j (hdd ▸ ht)
          have hnt1 : ¬ TouchL r1 ds j := fun ht' => hds (ht'.transportL hS1.symm)
          exact fold_preserves_consistent hW1 hr hnt1 hcons1
        · exact absurd ⟨d', hdd, ht⟩ hds

theorem updCons (fuel : Nat) : UpdConsP T fuel := by
  induction fuel with
  | zero => intro r id u uv r' _ _ h; rw [update_value_zero] at h; exact Option.noConfusion h
  | succ f ih =>
    intro r id u uv r' hW hu h j htj
    obtain ⟨cell, hc⟩ := update_value_some_get h
    rw [update_value_succ_some hc] at h
    have hS0 : Struct r (r.stepState id cell u uv) := stepState_struct r id cell u uv
    have hWs : WfE (r.stepState id cell u uv) := hW.transportE hS0
    have hrs_val : (r.stepState id cell u uv).value (CellId.Compute id)
        = some (r.stepValue cell u uv) := by
      rw [value_Compute]
      exact valComp_stepState_self hc u uv
    have hup_s : ∀ d ∈ cell.downstream, ∀ j', Touch (r.stepState id cell u uv) d j' →
        (CellId.Compute id : CellId) ≠ CellId.Compute j' := by
      intro d hd j' ht heq
      have h1 : id < d := (hW.comp_down_lt id cell hc d hd).1
      have h2 : d ≤ j' := ht.le hWs
      have h3 : id = j' := CellId.Compute.inj heq
      omega
    have FC := foldCons_of_updCons ih _ cell.downstream (CellId.Compute id)
        (r.stepValue cell u uv) r' hWs hrs_val hup_s h
    rcases touch_cases htj with hk | ⟨cc, hcc, htl⟩
    · subst hk
      have Cs : Consistent (r.stepState j cell u uv) j := by
        intro cc2 hcc2
        obtain ⟨cc', hcc', hdown', hdeps', hfunc', hcbs'⟩ := hS0.comp_get hc
        rw [hcc2] at hcc'
        cases hcc'
        have hval2 : cc2.value = r.stepValue cell u uv := by
          have hv := valComp_stepState_self hc u uv
          unfold valComp at hv
          rw [hcc2] at hv
          simpa using hv
        rw [hval2, hdeps', hfunc']
        unfold Reactor.stepValue
        congr 1
        unfold Reactor.vfduPure Reactor.values_from_dependencies
        refine List.map_congr_left ?_
        intro cid hcid
        by_cases hcu : cid = u
        · rw [if_pos hcu, hcu]
          have huid : (r.stepState j cell u uv).value u = r.value u := by
            cases u with
            | Input i => rfl
            | Compute p =>
              have hp : p ≠ j := by
                have := hW.deps_back j cell hc p (hcu ▸ hcid)
                omega
              rw [value_Compute, value_Compute]
              exact valComp_stepState_ne r j cell (CellId.Compute p) uv hp
          rw [huid, hu]
          rfl
        · rw [if_neg hcu]
          cases cid with
          | Input i => rfl
          | Compute m =>
            have hm : m ≠ j := by
              have := hW.deps_back j cell hc m hcid
              omega
            rw [value_Compute, value_Compute, valComp_stepState_ne r j cell u uv hm]
      have hnt : ¬ TouchL (r.stepState j cell u uv) cell.downstream j := by
        rintro ⟨d, hd, ht⟩
        have h1 : j < d := (hW.comp_down_lt j cell hc d hd).1
        have h2 : d ≤ j := ht.le hWs
        omega
      exact fold_preserves_consistent hWs h hnt Cs
    · rw [hc] at hcc
      cases hcc
      exact FC j (htl.transportL hS0)

/-- Touched-cell consistency, packaged for `update_value`. -/
theorem update_value_cons {fuel : Nat} {r : Reactor T} {id : Nat} {u : CellId} {uv : T}
    {r' : Reactor T} (hW : WfE r) (hu : r.value u = some uv)
    (h : Reactor.updateValueU fuel r id u uv = some r') {j : Nat} (htj : Touch r id j) :
    Consistent r' j :=
  updCons fuel r id u uv r' hW hu h j htj

/-- Touched-cell consistency, packaged for `updateDownstream`. -/
theorem updateDownstream_cons_spec {fuel : Nat} {r : Reactor T} {ds : List Nat} {u : CellId}
    {v : T} {r' : Reactor T} (hW : WfE r) (hu : r.value u = some v)
    (hup : ∀ d ∈ ds, ∀ j, Touch r d j → u ≠ CellId.Compute j)
    (h : Reactor.updateDownstreamU fuel r ds u v = some r') {j : Nat} (htj : TouchL r ds j) :
    Consistent r' j :=
  foldCons_of_updCons (updCons fuel) r ds u v r' hW hu hup h j htj

/-! ### Termination: the fuel supplied by `set_value` is always enough -/

theorem get?_isSome_of_lt {α : Type} {l : List α} {n : Nat} (h : n < l.length) :
    ∃ a, l.get? n = some a := by
  cases hg : l.get? n with
  | none => rw [List.get?_eq_none] at hg; omega
  | some a => exact ⟨a, rfl⟩

theorem updateDownstream_total (fuel : Nat)
    (IH : ∀ (r : Reactor T) (id : Nat) (u : CellId) (uv : T),
      WfE r → id < r.compute_cells.length → r.compute_cells.length - id ≤ fuel →
      ∃ r', Reactor.updateValueU fuel r id u uv = some r') :
    ∀ (ds : List Nat) (r : Reactor T) (u : CellId) (v : T), WfE r →
    (∀ d ∈ ds, d < r.compute_cells.length ∧ r.compute_cells.length - d ≤ fuel) →
    ∃ r', Reactor.updateDownstreamU fuel r ds u v = some r' := by
  intro ds
  induction ds with
  | nil => exact fun r u v _ _ => ⟨r, updateDownstream_nil fuel r u v⟩
  | cons d ds ihl =>
    intro r u v hW hds
    obtain ⟨r1, h1⟩ := IH r d u v hW (hds d (List.mem_cons_self d ds)).1
      (hds d (List.mem_cons_self d ds)).2
    have hS1 : Struct r r1 := (update_value_struct h1).1
    obtain ⟨r', h2⟩ := ihl r1 u v (hW.transportE hS1) (fun d' hd' => by
      rw [hS1.comp_len]
      exact hds d' (List.mem_cons_of_mem d hd'))
    exact ⟨r', by rw [updateDownstream_cons, h1, Option.some_bind]; exact h2⟩

theorem update_value_total (fuel : Nat) :
    ∀ (r : Reactor T) (id : Nat) (u : CellId) (uv : T),
    WfE r → id < r.compute_cells.length → r.compute_cells.length - id ≤ fuel →
    ∃ r', Reactor.updateValueU fuel r id u uv = some r' := by
  induction fuel with
  | zero => intro r id u uv _ h1 h2; omega
  | succ f ih =>
    intro r id u uv hW hlt hfuel
    obtain ⟨cell, hc⟩ := get?_isSome_of_lt hlt
    have hS0 : Struct r (r.stepState id cell u uv) := stepState_struct r id cell u uv
    obtain ⟨r', hr⟩ := updateDownstream_total f ih cell.downstream
        (r.stepState id cell u uv) (CellId.Compute id) (r.stepValue cell u uv)
        (hW.transportE hS0) (fun d hd => by
          have h3 := hW.comp_down_lt id cell hc d hd
          rw [hS0.comp_len]
          omega)
    exact ⟨r', by rw [update_value_succ_some hc]; exact hr⟩

/-! ### The faithful propagation: unfolding, refinement into the unchecked
recursion, and termination -/

theorem vfdu_ok {r : Reactor T} {borrowed : List Nat} {deps : List CellId} {u : CellId}
    {uv : T} {vals : List T}
    (h : r.values_from_dependencies_and_upstream borrowed deps u uv = .ok vals) :
    vals = r.vfduPure deps u uv := by
  unfold Reactor.values_from_dependencies_and_upstream at h
  by_cases hp : depsBorrowPanic borrowed deps u = true
  · rw [if_pos hp] at h
    exact Except.noConfusion h
  · rw [if_neg hp] at h
    exact (Except.ok.inj h).symm

theorem updF_zero (r : Reactor T) (borrowed : List Nat) (id : Nat) (u : CellId) (uv : T) :
    Reactor.update_value 0 r borrowed id u uv = none := rfl

theorem updF_succ (fuel : Nat) (r : Reactor T) (borrowed : List Nat) (id : Nat)
    (u : CellId) (uv : T) :
    Reactor.update_value (fuel + 1) r borrowed id u uv =
      match r.compute_cells.get? id with
      | none => some (.error ())
      | some cell =>
        if id ∈ borrowed then some (.error ())
        else match r.values_from_dependencies_and_upstream (id :: borrowed)
            cell.dependencies u uv with
          | .error _ => some (.error ())
          | .ok vals =>
            Reactor.updateDownstream fuel { r with
                values_before_update := (entryOrInsert r.values_before_update id cell.value)
                compute_cells := (listModify r.compute_cells id
                  (fun c => { c with value := cell.compute_func vals })) }
              (id :: borrowed) cell.downstream (CellId.Compute id)
              (cell.compute_func vals) := rfl

theorem updF_none_cell {fuel : Nat} {r : Reactor T} {borrowed : List Nat} {id : Nat}
    {u : CellId} {uv : T} (hc : r.compute_cells.get? id = none) :
    Reactor.update_value (fuel + 1) r borrowed id u uv = some (.error ()) := by
  rw [updF_succ, hc]

theorem updF_borrowed {fuel : Nat} {r : Reactor T} {borrowed : List Nat} {id : Nat}
    {u : CellId} {uv : T} {cell : ComputeCell T}
    (hc : r.compute_cells.get? id = some cell) (hb : id ∈ borrowed) :
    Reactor.update_value (fuel + 1) r borrowed id u uv = some (.error ()) := by
  rw [updF_succ, hc]
  show (if id ∈ borrowed then some (.error ())
    else match r.values_from_dependencies_and_upstream (id :: borrowed)
        cell.dependencies u uv with
      | .error _ => some (.error ())
      | .ok vals =>
        Reactor.updateDownstream fuel { r with
            values_before_update := (entryOrInsert r.values_before_update id cell.value)
            compute_cells := (listModify r.compute_cells id
              (fun c => { c with value := cell.compute_func vals })) }
          (id :: borrowed) cell.downstream (CellId.Compute id)
          (cell.compute_func vals)) = some (.error ())
  rw [if_pos hb]

theorem updF_vals {fuel : Nat} {r : Reactor T} {borrowed : List Nat} {id : Nat}
    {u : CellId} {uv : T} {cell : ComputeCell T}
    (hc : r.compute_cells.get? id = some cell) (hb : id ∉ borrowed) :
    Reactor.update_value (fuel + 1) r borrowed id u uv =
      match r.values_from_dependencies_and_upstream (id :: borrowed)
          cell.dependencies u uv with
      | .error _ => some (.error ())
      | .ok vals =>
        Reactor.updateDownstream fuel { r with
            values_before_update := (entryOrInsert r.values_before_update id cell.value)
            compute_cells := (listModify r.compute_cells id
              (fun c => { c with value := cell.compute_func vals })) }
          (id :: borrowed) cell.downstream (CellId.Compute id)
          (cell.compute_func vals) := by
  rw [updF_succ, hc]
  show (if id ∈ borrowed then some (.error ())
    else match r.values_from_dependencies_and_upstream (id :: borrowed)
        cell.dependencies u uv with
      | .error _ => some (.error ())
      | .ok vals =>
        Reactor.updateDownstream fuel { r with
            values_before_update := (entryOrInsert r.values_before_update id cell.value)
            compute_cells := (listModify r.compute_cells id
              (fun c => { c with value := cell.compute_func vals })) }
          (id :: borrowed) cell.downstream (CellId.Compute id)
          (cell.compute_func vals)) = _
  rw [if_neg hb]

theorem foldF_nil (fuel : Nat) (r : Reactor T) (borrowed : List Nat) (u : CellId) (v : T) :
    Reactor.updateDownstream fuel r borrowed [] u v = some (.ok r) := rfl

theorem foldF_none (fuel : Nat) (borrowed : List Nat) (ds : List Nat) (u : CellId) (v : T) :
    ds.foldl (fun acc d => match acc with
      | none => none
      | some (.error e) => some (.error e)
      | some (.ok s) => Reactor.update_value fuel s borrowed d u v)
      (none : Option (Except Unit (Reactor T))) = none := by
  induction ds with
  | nil => rfl
  | cons d ds ih => simpa using ih

theorem foldF_error (fuel : Nat) (borrowed : List Nat) (ds : List Nat) (u : CellId) (v : T)
    (e : Unit) :
    ds.foldl (fun acc d => match acc with
      | none => none
      | some (.error e) => some (.error e)
      | some (.ok s) => Reactor.update_value fuel s borrowed d u v)
      (some (.error e) : Option (Except Unit (Reactor T))) = some (.error e) := by
  induction ds with
  | nil => rfl
  | cons d ds ih => simpa using ih

theorem foldF_cons (fuel : Nat) (r : Reactor T) (borrowed : List Nat) (d : Nat) (ds : List Nat)
    (u : CellId) (v : T) :
    Reactor.updateDownstream fuel r borrowed (d :: ds) u v =
      match Reactor.update_value fuel r borrowed d u v with
      | none => none
      | some (.error e) => some (.error e)
      | some (.ok s) => Reactor.updateDownstream fuel s borrowed ds u v := by
  unfold Reactor.updateDownstream
  rw [List.foldl_cons]
  have hb : (match (some (.ok r) : Option (Except Unit (Reactor T))) with
      | none => none
      | some (.error e) => some (.error e)
      | some (.ok s) => Reactor.update_value fuel s borrowed d u v)
      = Reactor.update_value fuel r borrowed d u v := rfl
  rw [hb]
  cases h : Reactor.update_value fuel r borrowed d u v with
  | none => rw [foldF_none]
  | some res =>
    cases res with
    | error e => rw [foldF_error]
    | ok s => rfl

/-- Refinement of the faithful recursion into the unchecked one at a given
fuel: a normal completion reaches exactly the unchecked state, and fuel
exhaustion implies unchecked fuel exhaustion (the two run in lockstep until
the first panic, which returns `some`). -/
def UpdBridgeP (T : Type) [DecidableEq T] [Inhabited T] (fuel : Nat) : Prop :=
  ∀ (r : Reactor T) (borrowed : List Nat) (id : Nat) (u : CellId) (uv : T),
    (∀ r', Reactor.update_value fuel r borrowed id u uv = some (.ok r') →
      Reactor.updateValueU fuel r id u uv = some r') ∧
    (Reactor.update_value fuel r borrowed id u uv = none →
      Reactor.updateValueU fuel r id u uv = none)

/-- `UpdBridgeP` for the loop over a downstream list. -/
def FoldBridgeP (T : Type) [DecidableEq T] [Inhabited T] (fuel : Nat) : Prop :=
  ∀ (r : Reactor T) (borrowed : List Nat) (ds : List Nat) (u : CellId) (v : T),
    (∀ r', Reactor.updateDownstream fuel r borrowed ds u v = some (.ok r') →
      Reactor.updateDownstreamU fuel r ds u v = some r') ∧
    (Reactor.updateDownstream fuel r borrowed ds u v = none →
      Reactor.updateDownstreamU fuel r ds u v = none)

theorem foldBridge_of_updBridge {fuel : Nat} (h : UpdBridgeP T fuel) : FoldBridgeP T fuel := by
  intro r borrowed ds
  induction ds generalizing r with
  | nil =>
    intro u v
    constructor
    · intro r' hr
      rw [foldF_nil] at hr
      have h2 : (Except.ok r : Except Unit (Reactor T)) = .ok r' := Option.some.inj hr
      rw [← Except.ok.inj h2]
      exact updateDownstream_nil fuel r u v
    · intro hr
      rw [foldF_nil] at hr
      exact Option.noConfusion hr
  | cons d ds ihl =>
    intro u v
    constructor
    · intro r' hr
      rw [foldF_cons] at hr
      cases h1 : Reactor.update_value fuel r borrowed d u v with
      | none =>
        rw [h1] at hr
        exact Option.noConfusion hr
      | some res =>
        cases res with
        | error e =>
          rw [h1] at hr
          have h2 : (Except.error e : Except Unit (Reactor T)) = .ok r' := Option.some.inj hr
          exact absurd h2 (by simp)
        | ok s =>
          rw [h1] at hr
          have h3 : Reactor.updateDownstream fuel s borrowed ds u v = some (.ok r') := hr
          have hU1 := (h r borrowed d u v).1 s h1
          rw [updateDownstream_cons, hU1, Option.some_bind]
          exact (ihl s u v).1 r' h3
    · intro hr
      rw [foldF_cons] at hr
      cases h1 : Reactor.update_value fuel r borrowed d u v with
      | none =>
        have hU1 := (h r borrowed d u v).2 h1
        rw [updateDownstream_cons, hU1, Option.none_bind]
      | some res =>
        cases res with
        | error e =>
          rw [h1] at hr
          exact Option.noConfusion hr
        | ok s =>
          rw [h1] at hr
          have h3 : Reactor.updateDownstream fuel s borrowed ds u v = none := hr
          have hU1 := (h r borrowed d u v).1 s h1
          rw [updateDownstream_cons, hU1, Option.some_bind]
          exact (ihl s u v).2 h3

theorem updBridge : ∀ fuel, UpdBridgeP T fuel := by
  intro fuel
  induction fuel with
  | zero =>
    intro r borrowed id u uv
    exact ⟨fun r' hr => Option.noConfusion hr, fun _ => rfl⟩
  | succ f ih =>
    have hF := foldBridge_of_updBridge ih
    intro r borrowed id u uv
    constructor
    · intro r' hr
      cases hc : r.compute_cells.get? id with
      | none =>
        rw [updF_none_cell hc] at hr
        have h2 : (Except.error () : Except Unit (Reactor T)) = .ok r' := Option.some.inj hr
        exact absurd h2 (by simp)
      | some cell =>
        by_cases hb : id ∈ borrowed
        · rw [updF_borrowed hc hb] at hr
          have h2 : (Except.error () : Except Unit (Reactor T)) = .ok r' := Option.some.inj hr
          exact absurd h2 (by simp)
        · rw [updF_vals hc hb] at hr
          cases hv : r.values_from_dependencies_and_upstream (id :: borrowed)
              cell.dependencies u uv with
          | error e =>
            rw [hv] at hr
            have h2 : (Except.error () : Except Unit (Reactor T)) = .ok r' := Option.some.inj hr
            exact absurd h2 (by simp)
          | ok vals =>
            rw [hv] at hr
            have hvv := vfdu_ok hv
            subst hvv
            have h3 : Reactor.updateDownstream f (r.stepState id cell u uv) (id :: borrowed)
                cell.downstream (CellId.Compute id) (r.stepValue cell u uv)
                = some (.ok r') := hr
            have hU := (hF (r.stepState id cell u uv) (id :: borrowed) cell.downstream
              (CellId.Compute id) (r.stepValue cell u uv)).1 r' h3
            rw [update_value_succ_some hc]
            exact hU
    · intro hr
      cases hc : r.compute_cells.get? id with
      | none =>
        rw [updF_none_cell hc] at hr
        exact Option.noConfusion hr
      | some cell =>
        by_cases hb : id ∈ borrowed
        · rw [updF_borrowed hc hb] at hr
          exact Option.noConfusion hr
        · rw [updF_vals hc hb] at hr
          cases hv : r.values_from_dependencies_and_upstream (id :: borrowed)
              cell.dependencies u uv with
          | error e =>
            rw [hv] at hr
            exact Option.noConfusion hr
          | ok vals =>
            rw [hv] at hr
            have hvv := vfdu_ok hv
            subst hvv
            have h3 : Reactor.updateDownstream f (r.stepState id cell u uv) (id :: borrowed)
                cell.downstream (CellId.Compute id) (r.stepValue cell u uv) = none := hr
            have hU := (hF (r.stepState id cell u uv) (id :: borrowed) cell.downstream
              (CellId.Compute id) (r.stepValue cell u uv)).2 h3
            rw [update_value_succ_some hc]
            exact hU

/-- The faithful propagation pass never exhausts its fuel on a well-formed
state: it terminates, returning either a normal state or a panic. -/
theorem updateDownstream_total_faithful {r : Reactor T} (hW : WfE r) {ds : List Nat}
    (hds : ∀ d ∈ ds, d < r.compute_cells.length) (u : CellId) (v : T) :
    ∃ x, Reactor.updateDownstream (r.compute_cells.length + 1) r [] ds u v = some x := by
  cases hF : Reactor.updateDownstream (r.compute_cells.length + 1) r [] ds u v with
  | some x => exact ⟨x, rfl⟩
  | none =>
    exfalso
    have hU : Reactor.updateDownstreamU (r.compute_cells.length + 1) r ds u v = none :=
      (foldBridge_of_updBridge (updBridge _) r [] ds u v).2 hF
    obtain ⟨r', hr'⟩ := updateDownstream_total (r.compute_cells.length + 1)
      (fun r' id u' uv hW' hlt hfl => update_value_total _ r' id u' uv hW' hlt hfl)
      ds r u v hW (fun d hd => ⟨hds d hd, by omega⟩)
    rw [hU] at hr'
    exact Option.noConfusion hr'

/-! ### The full invariant of states at rest -/

/-- The invariant holding between public operations: the graph is
structurally well formed, every compute cell is consistent, and the
before-update buffer is empty. -/
structure Wf (r : Reactor T) : Prop where
  wfe : WfE r
  consistent : ∀ j, Consistent r j
  before_empty : r.values_before_update = []

/-- Consistency transports along equal structure and equal values. -/
theorem consistent_congr {r r' : Reactor T} (hS : StructW r r')
    (hvc : ∀ j, valComp r' j = valComp r j) (hvi : ∀ i, valIn r' i = valIn r i)
    {j : Nat} (h : Consistent r j) : Consistent r' j := by
  intro cc' hcc'
  obtain ⟨cc, hcc, _, hdeps, hfunc⟩ := hS.symmW.comp_getW hcc'
  have hval : cc'.value = cc.value := by
    have := hvc j
    unfold valComp at this
    rw [hcc', hcc] at this
    simpa using this
  have hdv : ∀ cid ∈ cc.dependencies, r'.value cid = r.value cid := by
    intro cid _
    cases cid with
    | Input i => rw [value_Input, value_Input]; exact hvi i
    | Compute m => rw [value_Compute, value_Compute]; exact hvc m
  rw [hval, ← hfunc, ← hdeps, vfd_congr hdv]
  exact h cc hcc

/-! ### `setInput` and the shape of `set_value` -/

theorem setInput_inputs (r : Reactor T) (id : Nat) (v : T) :
    (r.setInput id v).inputs = listModify r.inputs id (fun c => { c with value := v }) := rfl

theorem setInput_computes (r : Reactor T) (id : Nat) (v : T) :
    (r.setInput id v).compute_cells = r.compute_cells := rfl

theorem setInput_before (r : Reactor T) (id : Nat) (v : T) :
    (r.setInput id v).values_before_update = r.values_before_update := rfl

theorem valComp_setInput (r : Reactor T) (id : Nat) (v : T) (j : Nat) :
    valComp (r.setInput id v) j = valComp r j := rfl

theorem valIn_setInput_self {r : Reactor T} {id : Nat} {cell : InputCell T}
    (h : r.inputs.get? id = some cell) (v : T) : valIn (r.setInput id v) id = some v := by
  unfold valIn
  rw [setInput_inputs, get?_listModify_self, h]
  rfl

theorem valIn_setInput_ne (r : Reactor T) (id : Nat) (v : T) {i : Nat} (h : i ≠ id) :
    valIn (r.setInput id v) i = valIn r i := by
  unfold valIn
  rw [setInput_inputs, get?_listModify_ne _ _ _ _ h]

theorem setInput_struct (r : Reactor T) (id : Nat) (v : T) :
    Struct r (r.setInput id v) := by
  refine ⟨listModify_length _ _ _, rfl, ?_, fun _ => rfl, fun _ => rfl, fun _ => rfl,
    fun _ => rfl⟩
  intro i
  rw [setInput_inputs]
  exact map_proj_listModify r.inputs id (fun c => { c with value := v })
    InputCell.downstream (fun c => rfl) i

theorem set_value_invalid {r : Reactor T} {id : Nat} (h : r.inputs.get? id = none) (v : T) :
    r.set_value id v = some (.ok (r, false, [])) := by
  unfold Reactor.set_value
  rw [h]

theorem set_value_valid_eq {r : Reactor T} {id : Nat} {cell : InputCell T}
    (h : r.inputs.get? id = some cell) (v : T) :
    r.set_value id v =
      match Reactor.updateDownstream (r.compute_cells.length + 1) (r.setInput id v)
          [] cell.downstream (CellId.Input id) v with
      | none => none
      | some (.error e) => some (.error e)
      | some (.ok r2) => some (.ok ({ r2 with values_before_update := [] }, true,
          r2.maybe_execute_callbacks)) := by
  unfold Reactor.set_value
  rw [h]

/-- The propagation pass of a `set_value` on a well-formed state always
succeeds (the fuel `compute_cells.length + 1` is enough, because every
recursion step strictly increases the cell index). -/
theorem set_value_fold_total {r : Reactor T} (hW : WfE r) {i : Nat} {cell : InputCell T}
    (hi : r.inputs.get? i = some cell) (v : T) :
    ∃ r2, Reactor.updateDownstreamU (r.compute_cells.length + 1) (r.setInput i v)
      cell.downstream (CellId.Input i) v = some r2 := by
  have hS : Struct r (r.setInput i v) := setInput_struct r i v
  have hW1 : WfE (r.setInput i v) := hW.transportE hS
  refine updateDownstream_total (r.compute_cells.length + 1)
    (fun r' id u uv hW' hlt hfl => update_value_total _ r' id u uv hW' hlt hfl)
    cell.downstream (r.setInput i v) (CellId.Input i) v hW1 (fun d hd => ?_)
  have := hW.input_down_lt i cell hi d hd
  have hlen : (r.setInput i v).compute_cells.length = r.compute_cells.length := rfl
  rw [hlen]
  omega

theorem struct_setBefore (r : Reactor T) (m : List (Nat × T)) :
    Struct r { r with values_before_update := m } :=
  ⟨rfl, rfl, fun _ => rfl, fun _ => rfl, fun _ => rfl, fun _ => rfl, fun _ => rfl⟩

/-- Everything `set_value` guarantees about the state `r2` reached by the
propagation pass on a valid input of a well-formed reactor. -/
theorem set_value_spec {r : Reactor T} (hW : Wf r) {i : Nat} {cell : InputCell T}
    (hi : r.inputs.get? i = some cell) (v : T) :
    ∃ r2, Reactor.updateDownstreamU (r.compute_cells.length + 1) (r.setInput i v)
        cell.downstream (CellId.Input i) v = some r2 ∧
      Struct r r2 ∧
      valIn r2 i = some v ∧
      (∀ i', i' ≠ i → valIn r2 i' = valIn r i') ∧
      (∀ j, TouchI r i j → Consistent r2 j) ∧
      (∀ j, ¬ TouchI r i j → valComp r2 j = valComp r j) ∧
      (∀ k, (TouchI r i k → mlookup r2.values_before_update k = valComp r k) ∧
        (¬ TouchI r i k → mlookup r2.values_before_update k = none)) ∧
      keysNodup r2.values_before_update ∧
      (∀ k, TouchI r i k → (valComp r k).isSome = true) := by
  obtain ⟨r2, hf⟩ := set_value_fold_total hW.wfe hi v
  have hS1 : Struct r (r.setInput i v) := setInput_struct r i v
  have hW1 : WfE (r.setInput i v) := hW.wfe.transportE hS1
  have hSf : Struct (r.setInput i v) r2 := (updateDownstream_struct hf).1
  have htiff : ∀ j, TouchI r i j ↔ TouchL (r.setInput i v) cell.downstream j := by
    intro j
    constructor
    · rintro ⟨ic, hic, htl⟩
      rw [hi] at hic
      cases hic
      exact htl.transportL hS1
    · intro htl
      exact ⟨cell, hi, htl.transportL hS1.symm⟩
  have hbnone : ∀ k, mlookup (r.setInput i v).values_before_update k = none := by
    intro k
    rw [setInput_before, hW.before_empty]
    rfl
  refine ⟨r2, hf, hS1.trans hSf, ?_, ?_, ?_, ?_, ?_, ?_, ?_⟩
  · rw [(updateDownstream_struct hf).2.1 i]
    exact valIn_setInput_self hi v
  · intro i' hne
    rw [(updateDownstream_struct hf).2.1 i']
    exact valIn_setInput_ne r i v hne
  · intro j htj
    have hu : (r.setInput i v).value (CellId.Input i) = some v := by
      rw [value_Input]
      exact valIn_setInput_self hi v
    exact updateDownstream_cons_spec hW1 hu
      (fun d _ j' _ heq => CellId.noConfusion heq) hf ((htiff j).mp htj)
  · intro j hntj
    rw [updateDownstream_val hf (fun htl => hntj ((htiff j).mpr htl))]
    exact valComp_setInput r i v j
  · intro k
    have B := updateDownstream_before hf k
    constructor
    · intro htk
      rw [B.2.2.1 (hbnone k) ((htiff k).mp htk)]
      exact valComp_setInput r i v k
    · intro hntk
      exact B.2.2.2 (hbnone k) (fun htl => hntk ((htiff k).mpr htl))
  · apply (updateDownstream_struct hf).2.2
    rw [setInput_before, hW.before_empty]
    exact List.nodup_nil
  · intro k htk
    have B := updateDownstream_before hf k
    have := B.1 ((htiff k).mp htk)
    rw [valComp_setInput r i v k] at this
    exact this

/-- Decompose a normally returning `set_value` into its two source
branches. -/
theorem set_value_cases {r : Reactor T} {i : Nat} {v : T} {r' : Reactor T} {b : Bool}
    {fired : List (Nat × Nat × T)} (h : r.set_value i v = some (.ok (r', b, fired))) :
    (r' = r ∧ b = false ∧ fired = []) ∨
    ∃ cell r2, r.inputs.get? i = some cell ∧
      Reactor.updateDownstream (r.compute_cells.length + 1) (r.setInput i v)
        [] cell.downstream (CellId.Input i) v = some (.ok r2) ∧
      r' = { r2 with values_before_update := [] } ∧ b = true ∧
      fired = r2.maybe_execute_callbacks := by
  cases hi : r.inputs.get? i with
  | none =>
    rw [set_value_invalid hi] at h
    have h2 : (Except.ok (r, false, ([] : List (Nat × Nat × T))) :
        Except Unit (Reactor T × Bool × List (Nat × Nat × T)))
      = .ok (r', b, fired) := Option.some.inj h
    have h3 := Except.ok.inj h2
    exact Or.inl ⟨(congrArg Prod.fst h3).symm, (congrArg (fun p => p.2.1) h3).symm,
      (congrArg (fun p => p.2.2) h3).symm⟩
  | some cell =>
    rw [set_value_valid_eq hi] at h
    cases hf : Reactor.updateDownstream (r.compute_cells.length + 1) (r.setInput i v)
        [] cell.downstream (CellId.Input i) v with
    | none => rw [hf] at h; exact Option.noConfusion h
    | some res =>
      cases res with
      | error e =>
        rw [hf] at h
        have h2 : (Except.error e :
            Except Unit (Reactor T × Bool × List (Nat × Nat × T)))
          = .ok (r', b, fired) := Option.some.inj h
        exact absurd h2 (by simp)
      | ok r2 =>
        rw [hf] at h
        have h2 := Except.ok.inj (Option.some.inj h)
        exact Or.inr ⟨cell, r2, rfl, hf, (congrArg Prod.fst h2).symm,
          (congrArg (fun p => p.2.1) h2).symm, (congrArg (fun p => p.2.2) h2).symm⟩

/-- `set_value` preserves the resting invariant on every normal return. -/
theorem set_value_preserves_wf {r : Reactor T} (hW : Wf r) {i : Nat} {v : T}
    {r' : Reactor T} {b : Bool} {fired : List (Nat × Nat × T)}
    (h : r.set_value i v = some (.ok (r', b, fired))) : Wf r' := by
  rcases set_value_cases h with ⟨hr', _, _⟩ | ⟨cell, r2x, hi, hfx, hr', hb, hfired⟩
  · rw [hr']
    exact hW
  · have hfU : Reactor.updateDownstreamU (r.compute_cells.length + 1) (r.setInput i v)
        cell.downstream (CellId.Input i) v = some r2x :=
      (foldBridge_of_updBridge (updBridge _) _ [] _ _ _).1 r2x hfx
    obtain ⟨r2, hf, hS, hvi, hvi', hcons, hunt, hbef, hnd, hsome⟩ :=
      set_value_spec hW hi v
    have hr2 : r2 = r2x := Option.some.inj (hf.symm.trans hfU)
    subst hr2
    have hSr : Struct r r' := hr' ▸ (hS.trans (struct_setBefore r2 []))
    subst hr'
    refine ⟨hW.wfe.transportE hSr, ?_, rfl⟩
    intro j
    by_cases ht : TouchI r i j
    · exact hcons j ht
    · -- an untouched cell keeps its (consistent) value, and none of its
      -- dependencies changed
      intro cc' hcc'
      obtain ⟨cc, hcc, _, hdeps, hfunc, _⟩ := hS.symm.comp_get hcc'
      have hval : cc'.value = cc.value := by
        have hv := hunt j ht
        unfold valComp at hv
        rw [hcc', hcc] at hv
        simpa using hv
      have hdv : ∀ cid ∈ cc.dependencies,
          Reactor.value { r2 with values_before_update := ([] : List (Nat × T)) } cid
            = r.value cid := by
        intro cid hcid
        cases cid with
        | Input i' =>
          rw [value_Input, value_Input]
          by_cases hii : i' = i
          · exfalso
            apply ht
            subst hii
            have hjmem : j ∈ cell.downstream := hW.wfe.complete_in j cc hcc i' hcid cell hi
            exact ⟨cell, hi, j, hjmem, Touch.refl j⟩
          · exact hvi' i' hii
        | Compute m =>
          rw [value_Compute, value_Compute]
          by_cases htm : TouchI r i m
          · exfalso
            apply ht
            obtain ⟨x, hx⟩ := Option.isSome_iff_exists.mp (hsome m htm)
            have hmc : ∃ mc, r.compute_cells.get? m = some mc := by
              unfold valComp at hx
              cases hg : r.compute_cells.get? m with
              | none => rw [hg] at hx; exact absurd hx (by simp)
              | some mc => exact ⟨mc, rfl⟩
            obtain ⟨mc, hmc⟩ := hmc
            have hjmem : j ∈ mc.downstream := hW.wfe.complete_comp j cc hcc m hcid mc hmc
            obtain ⟨ic, hic, d', hd', ht'⟩ := htm
            exact ⟨ic, hic, d', hd', ht'.tail mc hmc hjmem⟩
          · exact hunt m htm
      rw [hval, ← hfunc, ← hdeps, vfd_congr hdv]
      exact hW.consistent j cc hcc

/-! ### Operation traces and removed callbacks -/

/-- Callback slot `k` of compute cell `c` exists and is tombstoned. -/
def Inactive (r : Reactor T) (c k : Nat) : Prop :=
  ∃ cc, r.compute_cells.get? c = some cc ∧ cc.callbacks.get? k = some false

/-- One public operation performed on a state, together with the callback
events it fires (only `set_value` fires any). -/
inductive Step : Reactor T → Reactor T → List (Nat × Nat × T) → Prop where
  | create_input (r : Reactor T) (v : T) : Step r (r.create_input v).1 []
  | create_compute (r : Reactor T) (deps : List CellId) (f : List T → T) :
      Step r (r.create_compute deps f).1 []
  | set_value (r : Reactor T) {r' : Reactor T} {b : Bool} {fired : List (Nat × Nat × T)}
      (i : Nat) (v : T) : r.set_value i v = some (.ok (r', b, fired)) → Step r r' fired
  | add_callback (r : Reactor T) (c : Nat) : Step r (r.add_callback c).1 []
  | remove_callback (r : Reactor T) (c k : Nat) : Step r (r.remove_callback c k).1 []

/-- A finite sequence of public operations, accumulating fired events. -/
inductive Trace : Reactor T → Reactor T → List (Nat × Nat × T) → Prop where
  | refl (r : Reactor T) : Trace r r []
  | snoc {r r1 r2 : Reactor T} {evs evs2 : List (Nat × Nat × T)} :
      Trace r r1 evs → Step r1 r2 evs2 → Trace r r2 (evs ++ evs2)

theorem Inactive.of_structW {r r' : Reactor T} (hS : StructW r r')
    (hcb : ∀ j, (r'.compute_cells.get? j).map ComputeCell.callbacks
      = (r.compute_cells.get? j).map ComputeCell.callbacks)
    {c k : Nat} (h : Inactive r c k) : Inactive r' c k := by
  obtain ⟨cc, hcc, hk⟩ := h
  obtain ⟨cc', hcc', _, _, _⟩ := hS.comp_getW hcc
  have := hcb c
  rw [hcc, hcc'] at this
  refine ⟨cc', hcc', ?_⟩
  rw [show cc'.callbacks = cc.callbacks from by simpa using this]
  exact hk

theorem mem_activeCallbackEvents (id : Nat) (v : T) :
    ∀ (bs : List Bool) (start : Nat) (c k : Nat) (w : T),
    (c, k, w) ∈ activeCallbackEvents id v bs start ↔
      c = id ∧ w = v ∧ start ≤ k ∧ bs.get? (k - start) = some true := by
  intro bs
  induction bs with
  | nil =>
    intro start c k w
    constructor
    · intro h; exact absurd h (List.not_mem_nil _)
    · rintro ⟨_, _, _, hget⟩; exact Option.noConfusion hget
  | cons b bs ih =>
    intro start c k w
    show (c, k, w) ∈ (if b then [(id, start, v)] else [])
        ++ activeCallbackEvents id v bs (start + 1) ↔ _
    rw [List.mem_append, ih (start + 1) c k w]
    constructor
    · rintro (h1 | ⟨he1, he2, hle, hget⟩)
      · have hb : b = true ∧ c = id ∧ k = start ∧ w = v := by
          cases b with
          | false => exact absurd h1 (List.not_mem_nil _)
          | true =>
            rw [if_pos rfl, List.mem_singleton] at h1
            refine ⟨rfl, ?_, ?_, ?_⟩
            · exact congrArg Prod.fst h1
            · exact congrArg (fun p => p.2.1) h1
            · exact congrArg (fun p => p.2.2) h1
        obtain ⟨hb, hc1, hc2, hc3⟩ := hb
        subst hb; subst hc1; subst hc2; subst hc3
        exact ⟨rfl, rfl, Nat.le_refl _, by rw [Nat.sub_self]; rfl⟩
      · refine ⟨he1, he2, by omega, ?_⟩
        have hss : k - start = (k - (start + 1)) + 1 := by omega
        rw [hss]
        exact hget
    · rintro ⟨he1, he2, hle, hget⟩
      by_cases hstart : k = start
      · left
        subst hstart
        rw [Nat.sub_self] at hget
        have hb : b = true := Option.some.inj hget
        subst hb; subst he1; subst he2
        rw [if_pos rfl]
        exact List.mem_singleton.mpr rfl
      · right
        refine ⟨he1, he2, by omega, ?_⟩
        have hss : k - start = (k - (start + 1)) + 1 := by omega
        rw [hss] at hget
        exact hget

theorem filter_activeCallbackEvents (id : Nat) (v : T) (j k : Nat) :
    ∀ (bs : List Bool) (start : Nat),
    (activeCallbackEvents id v bs start).filter (fun e => decide (e.1 = j ∧ e.2.1 = k))
      = if id = j ∧ start ≤ k ∧ bs.get? (k - start) = some true
        then [(id, k, v)] else [] := by
  intro bs
  induction bs with
  | nil =>
    intro start
    have hc : ¬ (id = j ∧ start ≤ k ∧ ([] : List Bool).get? (k - start) = some true) := by
      rintro ⟨_, _, hget⟩; exact Option.noConfusion hget
    rw [if_neg hc]
    rfl
  | cons b bs ih =>
    intro start
    show ((if b then [(id, start, v)] else [])
        ++ activeCallbackEvents id v bs (start + 1)).filter _ = _
    rw [List.filter_append, ih (start + 1)]
    by_cases hk : k = start
    · subst hk
      have hc1 : ¬ (id = j ∧ k + 1 ≤ k ∧ bs.get? (k - (k + 1)) = some true) := by
        rintro ⟨_, hle, _⟩; omega
      rw [if_neg hc1, List.append_nil]
      cases b with
      | false =>
        have hc2 : ¬ (id = j ∧ k ≤ k ∧ (false :: bs).get? (k - k) = some true) := by
          rintro ⟨_, _, hget⟩
          rw [Nat.sub_self] at hget
          exact Bool.noConfusion (Option.some.inj hget)
        rw [if_neg hc2]
        rfl
      | true =>
        rw [if_pos rfl]
        by_cases hj : id = j
        · have hc2 : id = j ∧ k ≤ k ∧ (true :: bs).get? (k - k) = some true :=
            ⟨hj, Nat.le_refl k, by rw [Nat.sub_self]; rfl⟩
          rw [if_pos hc2, List.filter_cons, if_pos (by simp [hj])]
          rfl
        · have hc2 : ¬ (id = j ∧ k ≤ k ∧ (true :: bs).get? (k - k) = some true) := by
            rintro ⟨hj', _, _⟩; exact hj hj'
          have hc3 : ¬ ((((id : Nat), k, v).1 = j ∧ ((id : Nat), k, v).2.1 = k)) := by
            rintro ⟨hj', _⟩; exact hj hj'
          rw [if_neg hc2, List.filter_cons, if_neg (by simpa using hc3)]
          rfl
    · have hhead : ((if b then [(id, start, v)] else []) : List (Nat × Nat × T)).filter
          (fun e => decide (e.1 = j ∧ e.2.1 = k)) = [] := by
        cases b with
        | false => rfl
        | true =>
          have hc3 : ¬ ((((id : Nat), start, v).1 = j ∧ ((id : Nat), start, v).2.1 = k)) := by
            rintro ⟨_, hk'⟩; exact hk hk'.symm
          rw [if_pos rfl, List.filter_cons, if_neg (by simpa using hc3)]
          rfl
      rw [hhead, List.nil_append]
      by_cases hcond : id = j ∧ start + 1 ≤ k ∧ bs.get? (k - (start + 1)) = some true
      · obtain ⟨hj, hle, hget⟩ := hcond
        have hss : k - start = (k - (start + 1)) + 1 := by omega
        have hcond' : id = j ∧ start ≤ k ∧ (b :: bs).get? (k - start) = some true :=
          ⟨hj, by omega, by rw [hss]; exact hget⟩
        rw [if_pos ⟨hj, hle, hget⟩, if_pos hcond']
      · have hcond' : ¬ (id = j ∧ start ≤ k ∧ (b :: bs).get? (k - start) = some true) := by
          rintro ⟨hj, hle, hget⟩
          have hle' : start + 1 ≤ k := by omega
          have hss : k - start = (k - (start + 1)) + 1 := by omega
          rw [hss] at hget
          exact hcond ⟨hj, hle', hget⟩
        rw [if_neg hcond, if_neg hcond']

theorem firedForEntry_none {r2 : Reactor T} {p : Nat × T}
    (h : r2.compute_cells.get? p.1 = none) : r2.firedForEntry p = [] := by
  unfold Reactor.firedForEntry
  rw [h]

theorem firedForEntry_some {r2 : Reactor T} {p : Nat × T} {cc : ComputeCell T}
    (h : r2.compute_cells.get? p.1 = some cc) :
    r2.firedForEntry p
      = if cc.value ≠ p.2 then activeCallbackEvents p.1 cc.value cc.callbacks 0 else [] := by
  unfold Reactor.firedForEntry
  rw [h]

theorem mem_firedForEntry_cell {r2 : Reactor T} {p : Nat × T} {e : Nat × Nat × T}
    (h : e ∈ r2.firedForEntry p) : e.1 = p.1 := by
  cases hg : r2.compute_cells.get? p.1 with
  | none => rw [firedForEntry_none hg] at h; exact absurd h (List.not_mem_nil e)
  | some cc =>
    rw [firedForEntry_some hg] at h
    by_cases hch : cc.value ≠ p.2
    · rw [if_pos hch] at h
      obtain ⟨e1, e2, e3⟩ := e
      rw [mem_activeCallbackEvents] at h
      exact h.1
    · rw [if_neg hch] at h
      exact absurd h (List.not_mem_nil _)

theorem filter_firedForEntry_some {r2 : Reactor T} {p : Nat × T} {cc : ComputeCell T}
    (hg : r2.compute_cells.get? p.1 = some cc) (j k : Nat) :
    (r2.firedForEntry p).filter (fun e => decide (e.1 = j ∧ e.2.1 = k))
      = if p.1 = j ∧ cc.value ≠ p.2 ∧ cc.callbacks.get? k = some true
        then [(p.1, k, cc.value)] else [] := by
  rw [firedForEntry_some hg]
  by_cases hch : cc.value ≠ p.2
  · rw [if_pos hch, filter_activeCallbackEvents]
    by_cases hjk : p.1 = j ∧ cc.callbacks.get? k = some true
    · rw [if_pos ⟨hjk.1, Nat.zero_le k, by rw [Nat.sub_zero]; exact hjk.2⟩,
        if_pos ⟨hjk.1, hch, hjk.2⟩]
    · have h1 : ¬ (p.1 = j ∧ 0 ≤ k ∧ cc.callbacks.get? (k - 0) = some true) := by
        rintro ⟨ha, _, hb⟩
        rw [Nat.sub_zero] at hb
        exact hjk ⟨ha, hb⟩
      have h2 : ¬ (p.1 = j ∧ cc.value ≠ p.2 ∧ cc.callbacks.get? k = some true) := by
        rintro ⟨ha, _, hb⟩
        exact hjk ⟨ha, hb⟩
      rw [if_neg h1, if_neg h2]
  · have h2 : ¬ (p.1 = j ∧ cc.value ≠ p.2 ∧ cc.callbacks.get? k = some true) := by
      rintro ⟨_, hv, _⟩
      exact hch hv
    rw [if_neg hch, if_neg h2]
    rfl

theorem filter_flatten_fired_aux (r2 : Reactor T) (j k : Nat) :
    ∀ (m : List (Nat × T)), keysNodup m →
    ((m.map r2.firedForEntry).flatten).filter (fun e => decide (e.1 = j ∧ e.2.1 = k))
      = ((mlookup m j).map (fun old => (r2.firedForEntry (j, old)).filter
            (fun e => decide (e.1 = j ∧ e.2.1 = k)))).getD [] := by
  intro m
  induction m with
  | nil => intro _; rfl
  | cons p ps ih =>
    intro hnd'
    obtain ⟨p1, p2⟩ := p
    have hndps : keysNodup ps := by
      unfold keysNodup at hnd' ⊢
      simpa using (List.nodup_cons.mp (by simpa using hnd')).2
    have hnkey : p1 ∉ ps.map Prod.fst := by
      unfold keysNodup at hnd'
      exact (List.nodup_cons.mp (by simpa using hnd')).1
    rw [List.map_cons, List.flatten_cons, List.filter_append, ih hndps]
    by_cases hpj : p1 = j
    · subst hpj
      have hlp : mlookup ((p1, p2) :: ps) p1 = some p2 := by
        unfold mlookup; rw [if_pos rfl]
      have hlps : mlookup ps p1 = none :=
        mlookup_eq_none_of_not_mem_keys hnkey
      rw [hlp, hlps]
      simp only [Option.map_none', Option.map_some', Option.getD_none, Option.getD_some,
        List.append_nil]
    · have hlp : mlookup ((p1, p2) :: ps) j = mlookup ps j := by
        show (if p1 = j then some p2 else mlookup ps j) = mlookup ps j
        rw [if_neg hpj]
      have hhead : (r2.firedForEntry (p1, p2)).filter
          (fun e => decide (e.1 = j ∧ e.2.1 = k)) = [] := by
        rw [List.filter_eq_nil_iff]
        intro e he
        have := mem_firedForEntry_cell he
        simp only [decide_eq_true_eq, not_and]
        intro h1
        exact absurd (this.symm.trans h1) hpj
      rw [hlp, hhead, List.nil_append]

theorem filter_fired_of_lookup_none {r2 : Reactor T}
    (hnd : keysNodup r2.values_before_update) {j : Nat} (k : Nat)
    (h : mlookup r2.values_before_update j = none) :
    (r2.maybe_execute_callbacks).filter (fun e => decide (e.1 = j ∧ e.2.1 = k)) = [] := by
  unfold Reactor.maybe_execute_callbacks
  rw [filter_flatten_fired_aux r2 j k _ hnd, h]
  rfl

theorem get?_append_cases {α : Type} {l : List α} {a : α} {i : Nat} {x : α}
    (h : (l ++ [a]).get? i = some x) : l.get? i = some x ∨ (i = l.length ∧ x = a) := by
  by_cases hlt : i < l.length
  · left
    rw [← List.get?_append hlt]
    exact h
  · right
    have hlt2 : i < (l ++ [a]).length := by
      by_cases h2 : i < (l ++ [a]).length
      · exact h2
      · rw [List.get?_eq_none.mpr (Nat.le_of_not_lt h2)] at h
        exact absurd h (by simp)
    rw [List.length_append, List.length_singleton] at hlt2
    have hi : i = l.length := by omega
    subst hi
    rw [List.get?_concat_length] at h
    exact ⟨rfl, (Option.some.inj h).symm⟩

/-! ### The remaining public operations preserve the invariant -/

theorem create_input_preserves_wf {r : Reactor T} (hW : Wf r) (v : T) :
    Wf (r.create_input v).1 := by
  unfold Reactor.create_input
  constructor
  · constructor
    · intro i ic hi d hd
      rcases get?_append_cases hi with hold | ⟨_, hic⟩
      · exact hW.wfe.input_down_lt i ic hold d hd
      · subst hic
        exact absurd hd (List.not_mem_nil d)
    · exact hW.wfe.comp_down_lt
    · exact hW.wfe.deps_back
    · intro j cc hj i hi
      rw [List.length_append]
      exact Nat.lt_of_lt_of_le (hW.wfe.deps_in j cc hj i hi) (Nat.le_add_right _ _)
    · intro j cc hj i hi ic hic
      have hlt : i < r.inputs.length := hW.wfe.deps_in j cc hj i hi
      rw [List.get?_append hlt] at hic
      exact hW.wfe.complete_in j cc hj i hi ic hic
    · exact hW.wfe.complete_comp
  · intro j cc hj
    rw [hW.consistent j cc hj]
    congr 1
    unfold Reactor.values_from_dependencies
    refine List.map_congr_left ?_
    intro cid hcid
    cases cid with
    | Compute m => rfl
    | Input i =>
      have hlt : i < r.inputs.length := hW.wfe.deps_in j cc hj i hcid
      show ((r.value (CellId.Input i)).getD default)
        = (((r.inputs ++ [({ value := v, downstream := [] } : InputCell T)]).get? i).map
            (fun c => c.value)).getD default
      rw [List.get?_append hlt]
      rfl
  · exact hW.before_empty

/-- `add_callback` changes only the callback slots of one cell. -/
theorem add_callback_structW (r : Reactor T) (c : Nat) :
    StructW r (r.add_callback c).1 := by
  unfold Reactor.add_callback
  cases hg : r.compute_cells.get? c with
  | none => exact (Struct.refl r).toW
  | some cell =>
    refine ⟨rfl, listModify_length _ _ _, fun i => rfl, ?_, ?_, ?_⟩
    · intro j
      exact map_proj_listModify r.compute_cells c
        (fun cc : ComputeCell T => { cc with callbacks := cc.callbacks ++ [true] })
        ComputeCell.downstream (fun cc => rfl) j
    · intro j
      exact map_proj_listModify r.compute_cells c
        (fun cc : ComputeCell T => { cc with callbacks := cc.callbacks ++ [true] })
        ComputeCell.dependencies (fun cc => rfl) j
    · intro j
      exact map_proj_listModify r.compute_cells c
        (fun cc : ComputeCell T => { cc with callbacks := cc.callbacks ++ [true] })
        ComputeCell.compute_func (fun cc => rfl) j

theorem add_callback_values (r : Reactor T) (c : Nat) :
    (∀ j, valComp (r.add_callback c).1 j = valComp r j) ∧
    (∀ i, valIn (r.add_callback c).1 i = valIn r i) ∧
    (r.add_callback c).1.values_before_update = r.values_before_update := by
  unfold Reactor.add_callback
  cases hg : r.compute_cells.get? c with
  | none => exact ⟨fun _ => rfl, fun _ => rfl, rfl⟩
  | some cell =>
    refine ⟨fun j => ?_, fun _ => rfl, rfl⟩
    unfold valComp
    exact map_proj_listModify r.compute_cells c
      (fun cc : ComputeCell T => { cc with callbacks := cc.callbacks ++ [true] })
      (fun cc => cc.value) (fun cc => rfl) j

theorem add_callback_preserves_wf {r : Reactor T} (hW : Wf r) (c : Nat) :
    Wf (r.add_callback c).1 := by
  obtain ⟨hvc, hvi, hbef⟩ := add_callback_values r c
  refine ⟨hW.wfe.transportW (add_callback_structW r c), ?_, ?_⟩
  · intro j
    exact consistent_congr (add_callback_structW r c) hvc hvi (hW.consistent j)
  · rw [hbef]
    exact hW.before_empty

/-- The two branch equations of `remove_callback` once the cell lookup is
known. -/
theorem remove_callback_eq_none {r : Reactor T} {c : Nat}
    (hg : r.compute_cells.get? c = none) (k : Nat) :
    r.remove_callback c k = (r, .error .NonexistentCell) := by
  unfold Reactor.remove_callback
  rw [hg]

theorem remove_callback_eq_some {r : Reactor T} {c : Nat} {cell : ComputeCell T}
    (hg : r.compute_cells.get? c = some cell) (k : Nat) :
    r.remove_callback c k =
      (match cell.callbacks.get? k with
       | none => (r, Except.error RemoveCallbackError.NonexistentCell)
       | some slot =>
         if slot then
           ({ r with compute_cells := (listModify r.compute_cells c
               (fun cc => { cc with callbacks := listModify cc.callbacks k (fun _ => false) })) },
            Except.ok ())
         else (r, Except.error RemoveCallbackError.NonexistentCallback)) := by
  unfold Reactor.remove_callback
  rw [hg]

/-- `remove_callback` changes only the callback slots of one cell. -/
theorem remove_callback_structW (r : Reactor T) (c k : Nat) :
    StructW r (r.remove_callback c k).1 := by
  cases hg : r.compute_cells.get? c with
  | none => rw [remove_callback_eq_none hg]; exact (Struct.refl r).toW
  | some cell =>
    rw [remove_callback_eq_some hg]
    cases hcb : cell.callbacks.get? k with
    | none => exact (Struct.refl r).toW
    | some slot =>
      cases slot with
      | false => exact (Struct.refl r).toW
      | true =>
        refine ⟨rfl, listModify_length _ _ _, fun i => rfl, ?_, ?_, ?_⟩
        · intro j
          exact map_proj_listModify r.compute_cells c
            (fun cc : ComputeCell T =>
              { cc with callbacks := listModify cc.callbacks k (fun _ => false) })
            ComputeCell.downstream (fun cc => rfl) j
        · intro j
          exact map_proj_listModify r.compute_cells c
            (fun cc : ComputeCell T =>
              { cc with callbacks := listModify cc.callbacks k (fun _ => false) })
            ComputeCell.dependencies (fun cc => rfl) j
        · intro j
          exact map_proj_listModify r.compute_cells c
            (fun cc : ComputeCell T =>
              { cc with callbacks := listModify cc.callbacks k (fun _ => false) })
            ComputeCell.compute_func (fun cc => rfl) j

theorem remove_callback_values (r : Reactor T) (c k : Nat) :
    (∀ j, valComp (r.remove_callback c k).1 j = valComp r j) ∧
    (∀ i, valIn (r.remove_callback c k).1 i = valIn r i) ∧
    (r.remove_callback c k).1.values_before_update = r.values_before_update := by
  cases hg : r.compute_cells.get? c with
  | none => rw [remove_callback_eq_none hg]; exact ⟨fun _ => rfl, fun _ => rfl, rfl⟩
  | some cell =>
    rw [remove_callback_eq_some hg]
    cases hcb : cell.callbacks.get? k with
    | none => exact ⟨fun _ => rfl, fun _ => rfl, rfl⟩
    | some slot =>
      cases slot with
      | false => exact ⟨fun _ => rfl, fun _ => rfl, rfl⟩
      | true =>
        refine ⟨fun j => ?_, fun _ => rfl, rfl⟩
        unfold valComp
        exact map_proj_listModify r.compute_cells c
          (fun cc : ComputeCell T =>
            { cc with callbacks := listModify cc.callbacks k (fun _ => false) })
          (fun cc => cc.value) (fun cc => rfl) j

/-! ### `create_compute`: the downstream-registration fold -/

/-- The fold of `create_compute` that records the new cell as a downstream
listener of every dependency. -/
def addAll (r : Reactor T) (deps : List CellId) (nid : Nat) : Reactor T :=
  deps.foldl (fun acc cid => acc.add_downstream_cell cid nid) r

theorem add_downstream_computes_length (r : Reactor T) (cid : CellId) (nid : Nat) :
    (r.add_downstream_cell cid nid).compute_cells.length = r.compute_cells.length := by
  cases cid with
  | Input i => rfl
  | Compute j => exact listModify_length _ _ _

theorem add_downstream_inputs_length (r : Reactor T) (cid : CellId) (nid : Nat) :
    (r.add_downstream_cell cid nid).inputs.length = r.inputs.length := by
  cases cid with
  | Input i => exact listModify_length _ _ _
  | Compute j => rfl

theorem add_downstream_before (r : Reactor T) (cid : CellId) (nid : Nat) :
    (r.add_downstream_cell cid nid).values_before_update = r.values_before_update := by
  cases cid <;> rfl

theorem add_downstream_comp_proj {β : Type} (r : Reactor T) (cid : CellId) (nid : Nat)
    (proj : ComputeCell T → β)
    (hproj : ∀ (c : ComputeCell T) (d : Nat),
      proj { c with downstream := c.downstream ++ [d] } = proj c) (j : Nat) :
    ((r.add_downstream_cell cid nid).compute_cells.get? j).map proj
      = (r.compute_cells.get? j).map proj := by
  cases cid with
  | Input i => rfl
  | Compute m =>
    exact map_proj_listModify r.compute_cells m
      (fun c : ComputeCell T => { c with downstream := c.downstream ++ [nid] }) proj
      (fun c => hproj c nid) j

theorem add_downstream_in_proj {β : Type} (r : Reactor T) (cid : CellId) (nid : Nat)
    (proj : InputCell T → β)
    (hproj : ∀ (c : InputCell T) (d : Nat),
      proj { c with downstream := c.downstream ++ [d] } = proj c) (i : Nat) :
    ((r.add_downstream_cell cid nid).inputs.get? i).map proj
      = (r.inputs.get? i).map proj := by
  cases cid with
  | Input i' =>
    exact map_proj_listModify r.inputs i'
      (fun c : InputCell T => { c with downstream := c.downstream ++ [nid] }) proj
      (fun c => hproj c nid) i
  | Compute m => rfl

theorem add_downstream_in_down (r : Reactor T) (cid : CellId) (nid : Nat) (i : Nat) :
    ((r.add_downstream_cell cid nid).inputs.get? i).map InputCell.downstream
      = (r.inputs.get? i).map (fun ic => ic.downstream ++
          (if cid = CellId.Input i then [nid] else [])) := by
  cases cid with
  | Compute m =>
    rw [if_neg (fun h => CellId.noConfusion h)]
    show (r.inputs.get? i).map InputCell.downstream = _
    cases r.inputs.get? i with
    | none => rfl
    | some ic => simp
  | Input i' =>
    by_cases hii : i' = i
    · subst hii
      rw [if_pos rfl]
      show ((listModify r.inputs i'
          (fun c => { c with downstream := c.downstream ++ [nid] })).get? i').map
          InputCell.downstream = _
      rw [get?_listModify_self]
      cases r.inputs.get? i' with
      | none => rfl
      | some ic => rfl
    · rw [if_neg (fun h => hii (CellId.Input.inj h))]
      show ((listModify r.inputs i'
          (fun c => { c with downstream := c.downstream ++ [nid] })).get? i).map
          InputCell.downstream = _
      rw [get?_listModify_ne _ _ _ _ (fun h => hii h.symm)]
      cases r.inputs.get? i with
      | none => rfl
      | some ic => simp

theorem add_downstream_comp_down (r : Reactor T) (cid : CellId) (nid : Nat) (j : Nat) :
    ((r.add_downstream_cell cid nid).compute_cells.get? j).map ComputeCell.downstream
      = (r.compute_cells.get? j).map (fun cc => cc.downstream ++
          (if cid = CellId.Compute j then [nid] else [])) := by
  cases cid with
  | Input i =>
    rw [if_neg (fun h => CellId.noConfusion h)]
    show (r.compute_cells.get? j).map ComputeCell.downstream = _
    cases r.compute_cells.get? j with
    | none => rfl
    | some cc => simp
  | Compute m =>
    by_cases hmj : m = j
    · subst hmj
      rw [if_pos rfl]
      show ((listModify r.compute_cells m
          (fun c => { c with downstream := c.downstream ++ [nid] })).get? m).map
          ComputeCell.downstream = _
      rw [get?_listModify_self]
      cases r.compute_cells.get? m with
      | none => rfl
      | some cc => rfl
    · rw [if_neg (fun h => hmj (CellId.Compute.inj h))]
      show ((listModify r.compute_cells m
          (fun c => { c with downstream := c.downstream ++ [nid] })).get? j).map
          ComputeCell.downstream = _
      rw [get?_listModify_ne _ _ _ _ (fun h => hmj h.symm)]
      cases r.compute_cells.get? j with
      | none => rfl
      | some cc => simp

theorem addAll_computes_length : ∀ (deps : List CellId) (r : Reactor T) (nid : Nat),
    (addAll r deps nid).compute_cells.length = r.compute_cells.length
  | [], _, _ => rfl
  | cid :: deps, r, nid =>
    (addAll_computes_length deps _ nid).trans (add_downstream_computes_length r cid nid)

theorem addAll_inputs_length : ∀ (deps : List CellId) (r : Reactor T) (nid : Nat),
    (addAll r deps nid).inputs.length = r.inputs.length
  | [], _, _ => rfl
  | cid :: deps, r, nid =>
    (addAll_inputs_length deps _ nid).trans (add_downstream_inputs_length r cid nid)

theorem addAll_before : ∀ (deps : List CellId) (r : Reactor T) (nid : Nat),
    (addAll r deps nid).values_before_update = r.values_before_update
  | [], _, _ => rfl
  | cid :: deps, r, nid =>
    (addAll_before deps _ nid).trans (add_downstream_before r cid nid)

theorem addAll_comp_proj {β : Type} (proj : ComputeCell T → β)
    (hproj : ∀ (c : ComputeCell T) (d : Nat),
      proj { c with downstream := c.downstream ++ [d] } = proj c) :
    ∀ (deps : List CellId) (r : Reactor T) (nid j : Nat),
    ((addAll r deps nid).compute_cells.get? j).map proj
      = (r.compute_cells.get? j).map proj
  | [], _, _, _ => rfl
  | cid :: deps, r, nid, j =>
    (addAll_comp_proj proj hproj deps _ nid j).trans
      (add_downstream_comp_proj r cid nid proj hproj j)

theorem addAll_in_proj {β : Type} (proj : InputCell T → β)
    (hproj : ∀ (c : InputCell T) (d : Nat),
      proj { c with downstream := c.downstream ++ [d] } = proj c) :
    ∀ (deps : List CellId) (r : Reactor T) (nid i : Nat),
    ((addAll r deps nid).inputs.get? i).map proj = (r.inputs.get? i).map proj
  | [], _, _, _ => rfl
  | cid :: deps, r, nid, i =>
    (addAll_in_proj proj hproj deps _ nid i).trans
      (add_downstream_in_proj r cid nid proj hproj i)

theorem addAll_valComp (deps : List CellId) (r : Reactor T) (nid j : Nat) :
    valComp (addAll r deps nid) j = valComp r j :=
  addAll_comp_proj (fun c => c.value) (fun _ _ => rfl) deps r nid j

theorem addAll_valIn (deps : List CellId) (r : Reactor T) (nid i : Nat) :
    valIn (addAll r deps nid) i = valIn r i :=
  addAll_in_proj (fun c => c.value) (fun _ _ => rfl) deps r nid i

/-- After the fold, an input cell's downstream list is its old list plus one
copy of the new id per occurrence among the dependencies. -/
theorem addAll_down_in : ∀ (deps : List CellId) (r : Reactor T) (nid i : Nat),
    ∃ s : List Nat, (∀ x ∈ s, x = nid) ∧ (CellId.Input i ∈ deps → s ≠ []) ∧
      (s ≠ [] → CellId.Input i ∈ deps) ∧
      ((addAll r deps nid).inputs.get? i).map InputCell.downstream
        = (r.inputs.get? i).map (fun ic => ic.downstream ++ s) := by
  intro deps
  induction deps with
  | nil =>
    intro r nid i
    refine ⟨[], fun x hx => absurd hx (List.not_mem_nil x),
      fun h => absurd h (List.not_mem_nil _), fun h => absurd rfl h, ?_⟩
    have hnil : addAll r [] nid = r := rfl
    rw [hnil]
    cases r.inputs.get? i with
    | none => rfl
    | some ic => simp
  | cons cid deps ih =>
    intro r nid i
    obtain ⟨s, hs, hmem, hmem', heq⟩ := ih (r.add_downstream_cell cid nid) nid i
    have hstep := add_downstream_in_down r cid nid i
    refine ⟨(if cid = CellId.Input i then [nid] else []) ++ s, ?_, ?_, ?_, ?_⟩
    · intro x hx
      rcases List.mem_append.mp hx with hx | hx
      · by_cases hc : cid = CellId.Input i
        · rw [if_pos hc] at hx; simpa using hx
        · rw [if_neg hc] at hx; exact absurd hx (List.not_mem_nil x)
      · exact hs x hx
    · intro hmm
      rcases List.mem_cons.mp hmm with hc | hc
      · rw [if_pos hc.symm]
        simp
      · intro happ
        exact (hmem hc) (List.append_eq_nil.mp happ).2
    · intro hne
      by_cases hc : cid = CellId.Input i
      · exact List.mem_cons.mpr (Or.inl hc.symm)
      · rw [if_neg hc, List.nil_append] at hne
        exact List.mem_cons.mpr (Or.inr (hmem' hne))
    · show ((addAll (r.add_downstream_cell cid nid) deps nid).inputs.get? i).map
          InputCell.downstream
        = (r.inputs.get? i).map (fun ic => ic.downstream ++
            ((if cid = CellId.Input i then [nid] else []) ++ s))
      rw [heq]
      cases hri : r.inputs.get? i with
      | none =>
        rw [hri] at hstep
        have h1 : (r.add_downstream_cell cid nid).inputs.get? i = none := by
          cases hj : (r.add_downstream_cell cid nid).inputs.get? i with
          | none => rfl
          | some ic1 => rw [hj] at hstep; exact absurd hstep (by simp)
        rw [h1]
        rfl
      | some ic =>
        rw [hri] at hstep
        cases hj : (r.add_downstream_cell cid nid).inputs.get? i with
        | none => rw [hj] at hstep; exact absurd hstep (by simp)
        | some ic1 =>
          rw [hj] at hstep
          have hd1 : ic1.downstream = ic.downstream ++
              (if cid = CellId.Input i then [nid] else []) := by simpa using hstep
          simp [hd1, List.append_assoc]

/-- After the fold, a compute cell's downstream list is its old list plus
one copy of the new id per occurrence among the dependencies. -/
theorem addAll_down_comp : ∀ (deps : List CellId) (r : Reactor T) (nid j : Nat),
    ∃ s : List Nat, (∀ x ∈ s, x = nid) ∧ (CellId.Compute j ∈ deps → s ≠ []) ∧
      (s ≠ [] → CellId.Compute j ∈ deps) ∧
      ((addAll r deps nid).compute_cells.get? j).map ComputeCell.downstream
        = (r.compute_cells.get? j).map (fun cc => cc.downstream ++ s) := by
  intro deps
  induction deps with
  | nil =>
    intro r nid j
    refine ⟨[], fun x hx => absurd hx (List.not_mem_nil x),
      fun h => absurd h (List.not_mem_nil _), fun h => absurd rfl h, ?_⟩
    have hnil : addAll r [] nid = r := rfl
    rw [hnil]
    cases r.compute_cells.get? j with
    | none => rfl
    | some cc => simp
  | cons cid deps ih =>
    intro r nid j
    obtain ⟨s, hs, hmem, hmem', heq⟩ := ih (r.add_downstream_cell cid nid) nid j
    have hstep := add_downstream_comp_down r cid nid j
    refine ⟨(if cid = CellId.Compute j then [nid] else []) ++ s, ?_, ?_, ?_, ?_⟩
    · intro x hx
      rcases List.mem_append.mp hx with hx | hx
      · by_cases hc : cid = CellId.Compute j
        · rw [if_pos hc] at hx; simpa using hx
        · rw [if_neg hc] at hx; exact absurd hx (List.not_mem_nil x)
      · exact hs x hx
    · intro hmm
      rcases List.mem_cons.mp hmm with hc | hc
      · rw [if_pos hc.symm]
        simp
      · intro happ
        exact (hmem hc) (List.append_eq_nil.mp happ).2
    · intro hne
      by_cases hc : cid = CellId.Compute j
      · exact List.mem_cons.mpr (Or.inl hc.symm)
      · rw [if_neg hc, List.nil_append] at hne
        exact List.mem_cons.mpr (Or.inr (hmem' hne))
    · show ((addAll (r.add_downstream_cell cid nid) deps nid).compute_cells.get? j).map
          ComputeCell.downstream
        = (r.compute_cells.get? j).map (fun cc => cc.downstream ++
            ((if cid = CellId.Compute j then [nid] else []) ++ s))
      rw [heq]
      cases hrj : r.compute_cells.get? j with
      | none =>
        rw [hrj] at hstep
        have h1 : (r.add_downstream_cell cid nid).compute_cells.get? j = none := by
          cases hj' : (r.add_downstream_cell cid nid).compute_cells.get? j with
          | none => rfl
          | some cc1 => rw [hj'] at hstep; exact absurd hstep (by simp)
        rw [h1]
        rfl
      | some cc =>
        rw [hrj] at hstep
        cases hj' : (r.add_downstream_cell cid nid).compute_cells.get? j with
        | none => rw [hj'] at hstep; exact absurd hstep (by simp)
        | some cc1 =>
          rw [hj'] at hstep
          have hd1 : cc1.downstream = cc.downstream ++
              (if cid = CellId.Compute j then [nid] else []) := by simpa using hstep
          simp [hd1, List.append_assoc]

theorem lt_length_of_get?_some {α : Type} {l : List α} {n : Nat} {a : α}
    (h : l.get? n = some a) : n < l.length := by
  by_cases hh : n < l.length
  · exact hh
  · rw [List.get?_eq_none.mpr (Nat.le_of_not_lt hh)] at h
    exact absurd h (by simp)

theorem valid_input_iff (r : Reactor T) (i : Nat) :
    r.valid (CellId.Input i) = true ↔ i < r.inputs.length := by
  unfold Reactor.valid
  simp

theorem valid_compute_iff (r : Reactor T) (j : Nat) :
    r.valid (CellId.Compute j) = true ↔ j < r.compute_cells.length := by
  unfold Reactor.valid
  simp

theorem create_compute_of_invalid {r : Reactor T} {deps : List CellId} (f : List T → T)
    {bad : CellId} (h : deps.find? (fun cid => !(r.valid cid)) = some bad) :
    r.create_compute deps f = (r, .error bad) := by
  unfold Reactor.create_compute
  rw [h]

theorem create_compute_of_valid {r : Reactor T} {deps : List CellId} (f : List T → T)
    (h : deps.find? (fun cid => !(r.valid cid)) = none) :
    r.create_compute deps f =
      (addAll { r with compute_cells := r.compute_cells ++
          [{ value := f (r.values_from_dependencies deps), downstream := [],
             dependencies := deps, compute_func := f, callbacks := [] }] } deps
          r.compute_cells.length,
       .ok r.compute_cells.length) := by
  unfold Reactor.create_compute
  rw [h]
  rfl

/-- The state built by a successful `create_compute` satisfies the resting
invariant. -/
theorem addAll_wf {r : Reactor T} (hW : Wf r) {deps : List CellId}
    (hv : ∀ d ∈ deps, r.valid d = true) (f : List T → T) :
    Wf (addAll { r with compute_cells := r.compute_cells ++
        [{ value := f (r.values_from_dependencies deps), downstream := [],
           dependencies := deps, compute_func := f, callbacks := [] }] } deps
        r.compute_cells.length) := by
  set n := r.compute_cells.length with hn
  set newCell : ComputeCell T :=
    { value := f (r.values_from_dependencies deps), downstream := [],
      dependencies := deps, compute_func := f, callbacks := [] } with hnew
  set r1 : Reactor T := { r with compute_cells := r.compute_cells ++ [newCell] } with hr1
  set rr : Reactor T := addAll r1 deps n with hrr
  have hvC : ∀ m, CellId.Compute m ∈ deps → m < n := fun m hm =>
    (valid_compute_iff r m).mp (hv _ hm)
  have hvI : ∀ i, CellId.Input i ∈ deps → i < r.inputs.length := fun i hi =>
    (valid_input_iff r i).mp (hv _ hi)
  have hlen : rr.compute_cells.length = n + 1 := by
    rw [hrr, addAll_computes_length, hr1]
    show (r.compute_cells ++ [newCell]).length = n + 1
    rw [List.length_append, List.length_singleton]
  have hlenIn : rr.inputs.length = r.inputs.length := by
    rw [hrr, addAll_inputs_length]
  have hr1get : ∀ {j : Nat}, j < n → r1.compute_cells.get? j = r.compute_cells.get? j := by
    intro j hj
    show (r.compute_cells ++ [newCell]).get? j = r.compute_cells.get? j
    exact List.get?_append hj
  have hr1new : r1.compute_cells.get? n = some newCell := by
    show (r.compute_cells ++ [newCell]).get? r.compute_cells.length = some newCell
    exact List.get?_concat_length _ _
  -- transfer a compute cell of `rr` back to `r1`
  have hcell : ∀ (j : Nat) (cc' : ComputeCell T), rr.compute_cells.get? j = some cc' →
      ∃ cc, r1.compute_cells.get? j = some cc ∧ cc'.value = cc.value ∧
        cc'.dependencies = cc.dependencies ∧ cc'.compute_func = cc.compute_func ∧
        ∃ s, (∀ x ∈ s, x = n) ∧ (s ≠ [] → CellId.Compute j ∈ deps) ∧
          cc'.downstream = cc.downstream ++ s := by
    intro j cc' hcc'
    obtain ⟨s, hs, _, hsmem, hdeq⟩ := addAll_down_comp deps r1 n j
    cases hr1j : r1.compute_cells.get? j with
    | none =>
      exfalso
      rw [← hrr] at hdeq
      rw [hcc', hr1j] at hdeq
      simp at hdeq
    | some cc =>
      refine ⟨cc, rfl, ?_, ?_, ?_, s, hs, hsmem, ?_⟩
      · have hp := addAll_comp_proj (fun c : ComputeCell T => c.value)
          (fun _ _ => rfl) deps r1 n j
        rw [← hrr, hcc', hr1j] at hp
        simpa using hp
      · have hp := addAll_comp_proj (fun c : ComputeCell T => c.dependencies)
          (fun _ _ => rfl) deps r1 n j
        rw [← hrr, hcc', hr1j] at hp
        simpa using hp
      · have hp := addAll_comp_proj (fun c : ComputeCell T => c.compute_func)
          (fun _ _ => rfl) deps r1 n j
        rw [← hrr, hcc', hr1j] at hp
        simpa using hp
      · rw [← hrr, hcc', hr1j] at hdeq
        simpa using hdeq
  -- transfer an input cell of `rr` back to `r`
  have hicell : ∀ (i : Nat) (ic' : InputCell T), rr.inputs.get? i = some ic' →
      ∃ ic, r.inputs.get? i = some ic ∧
        ∃ s, (∀ x ∈ s, x = n) ∧ (CellId.Input i ∈ deps → s ≠ []) ∧
          ic'.downstream = ic.downstream ++ s := by
    intro i ic' hic'
    obtain ⟨s, hs, hmem, _, hdeq⟩ := addAll_down_in deps r1 n i
    cases hri : r.inputs.get? i with
    | none =>
      exfalso
      rw [← hrr, hic'] at hdeq
      have : r1.inputs.get? i = none := hri
      rw [this] at hdeq
      simp at hdeq
    | some ic =>
      refine ⟨ic, rfl, s, hs, hmem, ?_⟩
      rw [← hrr, hic'] at hdeq
      have : r1.inputs.get? i = some ic := hri
      rw [this] at hdeq
      simpa using hdeq
  have hvalIn : ∀ i, valIn rr i = valIn r i := by
    intro i
    rw [hrr, addAll_valIn]
    exact rfl
  have hvalComp : ∀ m, m < n → valComp rr m = valComp r m := by
    intro m hm
    rw [hrr, addAll_valComp]
    show (r1.compute_cells.get? m).map (fun c => c.value)
      = (r.compute_cells.get? m).map (fun c => c.value)
    rw [hr1get hm]
  have hvalCompNew : valComp rr n = some newCell.value := by
    rw [hrr, addAll_valComp]
    show (r1.compute_cells.get? n).map (fun c => c.value) = some newCell.value
    rw [hr1new]
    rfl
  constructor
  · constructor
    · -- input_down_lt
      intro i ic' hic' d hd
      obtain ⟨ic, hic, s, hs, _, hdeq⟩ := hicell i ic' hic'
      rw [hlen]
      rw [hdeq] at hd
      rcases List.mem_append.mp hd with hd | hd
      · exact Nat.lt_succ_of_lt (hW.wfe.input_down_lt i ic hic d hd)
      · rw [hs d hd]
        exact Nat.lt_succ_self n
    · -- comp_down_lt
      intro j cc' hcc' d hd
      obtain ⟨cc, hr1j, _, _, _, s, hs, hsmem, hdeq⟩ := hcell j cc' hcc'
      have hjlt : j < n + 1 := by
        have := lt_length_of_get?_some hr1j
        show j < n + 1
        calc j < r1.compute_cells.length := this
          _ = n + 1 := by
            show (r.compute_cells ++ [newCell]).length = n + 1
            rw [List.length_append, List.length_singleton]
      rw [hlen]
      rw [hdeq] at hd
      by_cases hjn : j < n
      · rw [hr1get hjn] at hr1j
        rcases List.mem_append.mp hd with hd | hd
        · have := hW.wfe.comp_down_lt j cc hr1j d hd
          omega
        · rw [hs d hd]
          omega
      · have hjn' : j = n := by omega
        subst hjn'
        rcases List.mem_append.mp hd with hd | hd
        · rw [hr1new] at hr1j
          cases hr1j
          exact absurd hd (List.not_mem_nil d)
        · exfalso
          have : CellId.Compute n ∈ deps := hsmem (List.ne_nil_of_mem hd)
          exact absurd (hvC n this) (Nat.lt_irrefl n)
    · -- deps_back
      intro j cc' hcc' m hm
      obtain ⟨cc, hr1j, _, hdeps, _, _⟩ := hcell j cc' hcc'
      rw [hdeps] at hm
      by_cases hjn : j < n
      · rw [hr1get hjn] at hr1j
        exact hW.wfe.deps_back j cc hr1j m hm
      · have hjlt : j < n + 1 := by
          have := lt_length_of_get?_some hr1j
          calc j < r1.compute_cells.length := this
            _ = n + 1 := by
              show (r.compute_cells ++ [newCell]).length = n + 1
              rw [List.length_append, List.length_singleton]
        have hjn' : j = n := by omega
        subst hjn'
        rw [hr1new] at hr1j
        cases hr1j
        exact hvC m hm
    · -- deps_in
      intro j cc' hcc' i hi
      obtain ⟨cc, hr1j, _, hdeps, _, _⟩ := hcell j cc' hcc'
      rw [hdeps] at hi
      rw [hlenIn]
      by_cases hjn : j < n
      · rw [hr1get hjn] at hr1j
        exact hW.wfe.deps_in j cc hr1j i hi
      · have hjlt : j < n + 1 := by
          have := lt_length_of_get?_some hr1j
          calc j < r1.compute_cells.length := this
            _ = n + 1 := by
              show (r.compute_cells ++ [newCell]).length = n + 1
              rw [List.length_append, List.length_singleton]
        have hjn' : j = n := by omega
        subst hjn'
        rw [hr1new] at hr1j
        cases hr1j
        exact hvI i hi
    · -- complete_in
      intro j cc' hcc' i hi ic' hic'
      obtain ⟨cc, hr1j, _, hdeps, _, _⟩ := hcell j cc' hcc'
      obtain ⟨ic, hic, s, hs, hmem, hdeq⟩ := hicell i ic' hic'
      rw [hdeps] at hi
      rw [hdeq]
      by_cases hjn : j < n
      · rw [hr1get hjn] at hr1j
        exact List.mem_append_left s (hW.wfe.complete_in j cc hr1j i hi ic hic)
      · have hjlt : j < n + 1 := by
          have := lt_length_of_get?_some hr1j
          calc j < r1.compute_cells.length := this
            _ = n + 1 := by
              show (r.compute_cells ++ [newCell]).length = n + 1
              rw [List.length_append, List.length_singleton]
        have hjn' : j = n := by omega
        subst hjn'
        rw [hr1new] at hr1j
        cases hr1j
        obtain ⟨x, hx⟩ := List.exists_mem_of_ne_nil s (hmem hi)
        have : x = n := hs x hx
        subst this
        exact List.mem_append_right _ hx
    · -- complete_comp
      intro j cc' hcc' m hm mc' hmc'
      obtain ⟨cc, hr1j, _, hdeps, _, _⟩ := hcell j cc' hcc'
      obtain ⟨mc, hr1m, _, _, _, sm, hsm, hsmmem, hmdeq⟩ := hcell m mc' hmc'
      rw [hdeps] at hm
      rw [hmdeq]
      by_cases hjn : j < n
      · rw [hr1get hjn] at hr1j
        have hmlt : m < j := hW.wfe.deps_back j cc hr1j m hm
        have hmn : m < n := by omega
        rw [hr1get hmn] at hr1m
        exact List.mem_append_left sm (hW.wfe.complete_comp j cc hr1j m hm mc hr1m)
      · have hjlt : j < n + 1 := by
          have := lt_length_of_get?_some hr1j
          calc j < r1.compute_cells.length := this
            _ = n + 1 := by
              show (r.compute_cells ++ [newCell]).length = n + 1
              rw [List.length_append, List.length_singleton]
        have hjn' : j = n := by omega
        subst hjn'
        rw [hr1new] at hr1j
        cases hr1j
        -- the fold pushed `n` into every dependency's downstream list
        obtain ⟨sm2, hsm2, hmem2, _, hmdeq2⟩ := addAll_down_comp deps r1 n m
        rw [← hrr, hmc'] at hmdeq2
        cases hr1m2 : r1.compute_cells.get? m with
        | none => rw [hr1m2] at hmdeq2; simp at hmdeq2
        | some mc2 =>
          rw [hr1m2] at hmdeq2
          have hmd2 : mc'.downstream = mc2.downstream ++ sm2 := by simpa using hmdeq2
          obtain ⟨x, hx⟩ := List.exists_mem_of_ne_nil sm2 (hmem2 hm)
          have hxn : x = n := hsm2 x hx
          subst hxn
          rw [← hmdeq, hmd2]
          exact List.mem_append_right _ hx
  · -- consistency of every cell in the new state
    intro j cc' hcc'
    obtain ⟨cc, hr1j, hval, hdeps, hfunc, _⟩ := hcell j cc' hcc'
    have hdepvals : ∀ cid ∈ cc.dependencies,
        (∀ m, cid = CellId.Compute m → m < n) →
        (∀ i, cid = CellId.Input i → True) →
        rr.value cid = r.value cid := by
      intro cid _ hcb _
      cases cid with
      | Input i =>
        rw [value_Input, value_Input]
        exact hvalIn i
      | Compute m =>
        rw [value_Compute, value_Compute]
        exact hvalComp m (hcb m rfl)
    by_cases hjn : j < n
    · rw [hr1get hjn] at hr1j
      rw [hval, hfunc, hdeps]
      have hvals : ∀ cid ∈ cc.dependencies, rr.value cid = r.value cid := by
        intro cid hcid
        refine hdepvals cid hcid ?_ (fun _ _ => trivial)
        intro m hmc
        subst hmc
        have := hW.wfe.deps_back j cc hr1j m hcid
        omega
      rw [vfd_congr hvals]
      exact hW.consistent j cc hr1j
    · have hjlt : j < n + 1 := by
        have := lt_length_of_get?_some hr1j
        calc j < r1.compute_cells.length := this
          _ = n + 1 := by
            show (r.compute_cells ++ [newCell]).length = n + 1
            rw [List.length_append, List.length_singleton]
      have hjn' : j = n := by omega
      subst hjn'
      rw [hr1new] at hr1j
      cases hr1j
      rw [hval, hfunc, hdeps]
      show newCell.value = newCell.compute_func (rr.values_from_dependencies newCell.dependencies)
      have hvals : ∀ cid ∈ newCell.dependencies, rr.value cid = r.value cid := by
        intro cid hcid
        cases cid with
        | Input i =>
          rw [value_Input, value_Input]
          exact hvalIn i
        | Compute m =>
          rw [value_Compute, value_Compute]
          exact hvalComp m (hvC m hcid)
      rw [vfd_congr hvals]
  · -- the before buffer is untouched
    rw [hrr, addAll_before]
    exact hW.before_empty

theorem remove_callback_preserves_wf {r : Reactor T} (hW : Wf r) (c k : Nat) :
    Wf (r.remove_callback c k).1 := by
  obtain ⟨hvc, hvi, hbef⟩ := remove_callback_values r c k
  refine ⟨hW.wfe.transportW (remove_callback_structW r c k), ?_, ?_⟩
  · intro j
    exact consistent_congr (remove_callback_structW r c k) hvc hvi (hW.consistent j)
  · rw [hbef]
    exact hW.before_empty

theorem create_compute_preserves_wf {r : Reactor T} (hW : Wf r) (deps : List CellId)
    (f : List T → T) : Wf (r.create_compute deps f).1 := by
  cases hfind : deps.find? (fun cid => !(r.valid cid)) with
  | some bad =>
    rw [create_compute_of_invalid f hfind]
    exact hW
  | none =>
    rw [create_compute_of_valid f hfind]
    have hv : ∀ d ∈ deps, r.valid d = true := by
      intro d hd
      have := List.find?_eq_none.mp hfind d hd
      simpa using this
    exact addAll_wf hW hv f

/-- What a successful `create_compute` guarantees: fresh `Ok` handle, eager
seeding of the cached value from the current dependency values, no other
value changed. -/
theorem create_compute_spec {r : Reactor T} {deps : List CellId}
    (hv : ∀ d ∈ deps, r.valid d = true) (f : List T → T) :
    ∃ r', r.create_compute deps f = (r', .ok r.compute_cells.length) ∧
      (∀ cid ∈ deps, r'.value cid = r.value cid) ∧
      r'.value (CellId.Compute r.compute_cells.length)
        = some (f (r'.values_from_dependencies deps)) ∧
      r.valid (CellId.Compute r.compute_cells.length) = false ∧
      r'.valid (CellId.Compute r.compute_cells.length) = true := by
  have hfind : deps.find? (fun cid => !(r.valid cid)) = none := by
    rw [List.find?_eq_none]
    intro d hd
    rw [hv d hd]
    simp
  have heq := create_compute_of_valid f hfind
  set n := r.compute_cells.length with hn
  set newCell : ComputeCell T :=
    { value := f (r.values_from_dependencies deps), downstream := [],
      dependencies := deps, compute_func := f, callbacks := [] } with hnew
  set r1 : Reactor T := { r with compute_cells := r.compute_cells ++ [newCell] } with hr1
  have hdep : ∀ cid ∈ deps, (addAll r1 deps n).value cid = r.value cid := by
    intro cid hcid
    cases cid with
    | Input i =>
      rw [value_Input, value_Input, addAll_valIn]
      exact rfl
    | Compute m =>
      have hm : m < n := (valid_compute_iff r m).mp (hv _ hcid)
      rw [value_Compute, value_Compute, addAll_valComp]
      show (r1.compute_cells.get? m).map (fun c => c.value)
        = (r.compute_cells.get? m).map (fun c => c.value)
      rw [show r1.compute_cells.get? m = r.compute_cells.get? m from List.get?_append hm]
  refine ⟨addAll r1 deps n, heq, hdep, ?_, ?_, ?_⟩
  · rw [value_Compute, addAll_valComp]
    show (r1.compute_cells.get? n).map (fun c => c.value) = _
    rw [show r1.compute_cells.get? n = some newCell from List.get?_concat_length _ _]
    show some newCell.value = some (f ((addAll r1 deps n).values_from_dependencies deps))
    rw [show (addAll r1 deps n).values_from_dependencies deps
        = r.values_from_dependencies deps from vfd_congr hdep]
  · show decide (n < n) = false
    simp
  · show decide (n < (addAll r1 deps n).compute_cells.length) = true
    rw [addAll_computes_length]
    have : r1.compute_cells.length = n + 1 := by
      show (r.compute_cells ++ [newCell]).length = n + 1
      rw [List.length_append, List.length_singleton]
    rw [this]
    simp

/-! ### Reachable states -/

/-- States reachable from `Reactor::new()` through the public operations. -/
inductive Reachable : Reactor T → Prop where
  | new : Reachable Reactor.new
  | create_input {r : Reactor T} (v : T) : Reachable r → Reachable (r.create_input v).1
  | create_compute {r : Reactor T} (deps : List CellId) (f : List T → T) :
      Reachable r → Reachable (r.create_compute deps f).1
  | set_value {r r' : Reactor T} {b : Bool} {fired : List (Nat × Nat × T)} (i : Nat) (v : T) :
      Reachable r → r.set_value i v = some (.ok (r', b, fired)) → Reachable r'
  | add_callback {r : Reactor T} (c : Nat) : Reachable r → Reachable (r.add_callback c).1
  | remove_callback {r : Reactor T} (c k : Nat) :
      Reachable r → Reachable (r.remove_callback c k).1

theorem wf_new : Wf (Reactor.new : Reactor T) := by
  refine ⟨⟨?_, ?_, ?_, ?_, ?_, ?_⟩, ?_, rfl⟩
  · intro i ic hi; exact Option.noConfusion hi
  · intro j cc hj; exact Option.noConfusion hj
  · intro j cc hj; exact Option.noConfusion hj
  · intro j cc hj; exact Option.noConfusion hj
  · intro j cc hj; exact Option.noConfusion hj
  · intro j cc hj; exact Option.noConfusion hj
  · intro j cc hj; exact Option.noConfusion hj

/-- Every reachable state satisfies the resting invariant: the dependency
graph is well formed and complete, every compute cell caches its function of
the current dependency values, and the before-update buffer is empty. -/
theorem Reachable.wf {r : Reactor T} (h : Reachable r) : Wf r := by
  induction h with
  | new => exact wf_new
  | create_input v _ ih => exact create_input_preserves_wf ih v
  | create_compute deps f _ ih => exact create_compute_preserves_wf ih deps f
  | set_value i v _ hs ih => exact set_value_preserves_wf ih hs
  | add_callback c _ ih => exact add_callback_preserves_wf ih c
  | remove_callback c k _ ih => exact remove_callback_preserves_wf ih c k


theorem filter_fired_of_lookup_some {r2 : Reactor T}
    (hnd : keysNodup r2.values_before_update) {j : Nat} {old : T} {cc : ComputeCell T}
    (hl : mlookup r2.values_before_update j = some old)
    (hg : r2.compute_cells.get? j = some cc) (k : Nat) :
    (r2.maybe_execute_callbacks).filter (fun e => decide (e.1 = j ∧ e.2.1 = k))
      = if cc.value ≠ old ∧ cc.callbacks.get? k = some true
        then [(j, k, cc.value)] else [] := by
  unfold Reactor.maybe_execute_callbacks
  rw [filter_flatten_fired_aux r2 j k _ hnd, hl]
  show (r2.firedForEntry (j, old)).filter _ = _
  rw [@filter_firedForEntry_some T _ _ r2 (j, old) cc hg]
  by_cases hx : cc.value ≠ old ∧ cc.callbacks.get? k = some true
  · rw [if_pos ⟨rfl, hx.1, hx.2⟩, if_pos hx]
  · have h2 : ¬ ((j : Nat) = j ∧ cc.value ≠ old ∧ cc.callbacks.get? k = some true) := by
      rintro ⟨_, ha, hb⟩
      exact hx ⟨ha, hb⟩
    rw [if_neg h2, if_neg hx]

theorem flatten_map_eq_nil {α β : Type} (m : List α) (f : α → List β)
    (h : ∀ p ∈ m, f p = []) : (m.map f).flatten = [] := by
  induction m with
  | nil => rfl
  | cons p ps ih =>
    rw [List.map_cons, List.flatten_cons, h p (List.mem_cons_self p ps),
      ih (fun q hq => h q (List.mem_cons_of_mem p hq)), List.append_nil]

/-- Any fired event names a currently live callback slot and carries the
cell's current (final) value. -/
theorem mem_fired_active {r2 : Reactor T} {e : Nat × Nat × T}
    (h : e ∈ r2.maybe_execute_callbacks) :
    ∃ cc, r2.compute_cells.get? e.1 = some cc ∧
      cc.callbacks.get? e.2.1 = some true ∧ e.2.2 = cc.value := by
  unfold Reactor.maybe_execute_callbacks at h
  rw [List.mem_flatten] at h
  obtain ⟨l, hl, hel⟩ := h
  rw [List.mem_map] at hl
  obtain ⟨p, hp, rfl⟩ := hl
  cases hg : r2.compute_cells.get? p.1 with
  | none => rw [firedForEntry_none hg] at hel; exact absurd hel (List.not_mem_nil e)
  | some cc =>
    rw [firedForEntry_some hg] at hel
    by_cases hch : cc.value ≠ p.2
    · rw [if_pos hch] at hel
      obtain ⟨e1, e2, e3⟩ := e
      rw [mem_activeCallbackEvents] at hel
      obtain ⟨he1, he2, _, hget⟩ := hel
      rw [Nat.sub_zero] at hget
      exact ⟨cc, by rw [he1]; exact hg, hget, he2⟩
    · rw [if_neg hch] at hel
      exact absurd hel (List.not_mem_nil _)

/-! ### No operation resurrects a removed callback -/

theorem step_preserves_inactive {r r' : Reactor T} {evs : List (Nat × Nat × T)}
    (st : Step r r' evs) {c k : Nat} (h : Inactive r c k) :
    Inactive r' c k ∧ ∀ v, (c, k, v) ∉ evs := by
  cases st with
  | create_input v =>
    exact ⟨h, fun v hv => absurd hv (List.not_mem_nil _)⟩
  | create_compute deps f =>
    refine ⟨?_, fun v hv => absurd hv (List.not_mem_nil _)⟩
    cases hfind : deps.find? (fun cid => !(r.valid cid)) with
    | some bad =>
      rw [create_compute_of_invalid f hfind]
      exact h
    | none =>
      rw [create_compute_of_valid f hfind]
      obtain ⟨cc, hcc, hk⟩ := h
      have hc : c < r.compute_cells.length := lt_length_of_get?_some hcc
      set newCell : ComputeCell T :=
        { value := f (r.values_from_dependencies deps), downstream := [],
          dependencies := deps, compute_func := f, callbacks := [] } with hnew
      set r1 : Reactor T := { r with compute_cells := r.compute_cells ++ [newCell] } with hr1
      have hr1c : r1.compute_cells.get? c = some cc := by
        show (r.compute_cells ++ [newCell]).get? c = some cc
        rw [List.get?_append hc]
        exact hcc
      have hp := addAll_comp_proj (fun x : ComputeCell T => x.callbacks) (fun _ _ => rfl)
        deps r1 r.compute_cells.length c
      cases hgc : (addAll r1 deps r.compute_cells.length).compute_cells.get? c with
      | none => rw [hgc, hr1c] at hp; exact absurd hp (by simp)
      | some cc2 =>
        rw [hgc, hr1c] at hp
        refine ⟨cc2, hgc, ?_⟩
        rw [show cc2.callbacks = cc.callbacks from by simpa using hp]
        exact hk
  | set_value i v hsv =>
    rcases set_value_cases hsv with ⟨hr', _, hfired⟩ | ⟨cell, r2, hi, hf, hr', hb, hfired⟩
    · subst hr'
      subst hfired
      exact ⟨h, fun v hv => absurd hv (List.not_mem_nil _)⟩
    · have hfU : Reactor.updateDownstreamU (r.compute_cells.length + 1) (r.setInput i v)
          cell.downstream (CellId.Input i) v = some r2 :=
        (foldBridge_of_updBridge (updBridge _) _ [] _ _ _).1 r2 hf
      have hS : Struct r r2 := (setInput_struct r i v).trans (updateDownstream_struct hfU).1
      have hin2 : Inactive r2 c k := by
        obtain ⟨cc, hcc, hk⟩ := h
        obtain ⟨cc2, hcc2, _, _, _, hcb⟩ := hS.comp_get hcc
        exact ⟨cc2, hcc2, hcb ▸ hk⟩
      constructor
      · subst hr'
        obtain ⟨cc2, hcc2, hk2⟩ := hin2
        exact ⟨cc2, hcc2, hk2⟩
      · subst hfired
        intro w hw
        obtain ⟨cc2, hcc2, hk2⟩ := hin2
        obtain ⟨cc3, hcc3, hactive, _⟩ := mem_fired_active hw
        rw [hcc2] at hcc3
        cases hcc3
        rw [hk2] at hactive
        exact Bool.noConfusion (Option.some.inj hactive)
  | add_callback c' =>
    refine ⟨?_, fun v hv => absurd hv (List.not_mem_nil _)⟩
    obtain ⟨cc, hcc, hk⟩ := h
    unfold Reactor.add_callback
    cases hg : r.compute_cells.get? c' with
    | none => exact ⟨cc, hcc, hk⟩
    | some cell =>
      by_cases hcc' : c = c'
      · subst hcc'
        rw [hg] at hcc
        cases hcc
        refine ⟨{ cc with callbacks := cc.callbacks ++ [true] }, ?_, ?_⟩
        · show (listModify r.compute_cells c
            (fun x => { x with callbacks := x.callbacks ++ [true] })).get? c = _
          rw [get?_listModify_self, hg]
          rfl
        · show (cc.callbacks ++ [true]).get? k = some false
          have hklt : k < cc.callbacks.length := lt_length_of_get?_some hk
          rw [List.get?_append hklt]
          exact hk
      · refine ⟨cc, ?_, hk⟩
        show (listModify r.compute_cells c'
          (fun x => { x with callbacks := x.callbacks ++ [true] })).get? c = some cc
        rw [get?_listModify_ne _ _ _ _ hcc']
        exact hcc
  | remove_callback c' k' =>
    refine ⟨?_, fun v hv => absurd hv (List.not_mem_nil _)⟩
    obtain ⟨cc, hcc, hk⟩ := h
    cases hg : r.compute_cells.get? c' with
    | none => rw [remove_callback_eq_none hg]; exact ⟨cc, hcc, hk⟩
    | some cell =>
      rw [remove_callback_eq_some hg]
      cases hcb : cell.callbacks.get? k' with
      | none => exact ⟨cc, hcc, hk⟩
      | some slot =>
        cases slot with
        | false => exact ⟨cc, hcc, hk⟩
        | true =>
          by_cases hcc' : c = c'
          · subst hcc'
            rw [hg] at hcc
            cases hcc
            refine ⟨{ cc with callbacks := listModify cc.callbacks k' (fun _ => false) },
              ?_, ?_⟩
            · show (listModify r.compute_cells c
                (fun x => { x with callbacks := listModify x.callbacks k' (fun _ => false) })).get? c
                = _
              rw [get?_listModify_self, hg]
              rfl
            · by_cases hkk : k = k'
              · subst hkk
                show (listModify cc.callbacks k (fun _ => false)).get? k = some false
                rw [get?_listModify_self, hk]
                rfl
              · show (listModify cc.callbacks k' (fun _ => false)).get? k = some false
                rw [get?_listModify_ne _ _ _ _ hkk]
                exact hk
          · refine ⟨cc, ?_, hk⟩
            show (listModify r.compute_cells c'
              (fun x => { x with callbacks := listModify x.callbacks k' (fun _ => false) })).get? c
              = some cc
            rw [get?_listModify_ne _ _ _ _ hcc']
            exact hcc

theorem trace_preserves_inactive {r r' : Reactor T} {evs : List (Nat × Nat × T)}
    (tr : Trace r r' evs) {c k : Nat} (h : Inactive r c k) :
    Inactive r' c k ∧ ∀ v, (c, k, v) ∉ evs := by
  induction tr with
  | refl => exact ⟨h, fun v hv => absurd hv (List.not_mem_nil _)⟩
  | snoc tr st ih =>
    obtain ⟨h1, h2⟩ := ih
    obtain ⟨h3, h4⟩ := step_preserves_inactive st h1
    refine ⟨h3, fun v hv => ?_⟩
    rcases List.mem_append.mp hv with hv | hv
    · exact h2 v hv
    · exact h4 v hv

/-- A successful removal tombstones the slot. -/
theorem remove_callback_ok {r : Reactor T} {c k : Nat} {r' : Reactor T}
    (h : r.remove_callback c k = (r', Except.ok ())) : Inactive r' c k := by
  cases hg : r.compute_cells.get? c with
  | none =>
    rw [remove_callback_eq_none hg] at h
    exact absurd (congrArg Prod.snd h) (by simp)
  | some cell =>
    rw [remove_callback_eq_some hg] at h
    cases hcb : cell.callbacks.get? k with
    | none =>
      rw [hcb] at h
      have h2 : ((r, Except.error RemoveCallbackError.NonexistentCell) :
          Reactor T × Except RemoveCallbackError Unit) = (r', Except.ok ()) := h
      exact absurd (congrArg Prod.snd h2) (by simp)
    | some slot =>
      rw [hcb] at h
      cases slot with
      | false =>
        have h2 : ((r, Except.error RemoveCallbackError.NonexistentCallback) :
            Reactor T × Except RemoveCallbackError Unit) = (r', Except.ok ()) := h
        exact absurd (congrArg Prod.snd h2) (by simp)
      | true =>
        have h2 : ((({ r with compute_cells := (listModify r.compute_cells c
            (fun x => { x with callbacks := listModify x.callbacks k (fun _ => false) })) } :
              Reactor T),
            (Except.ok () : Except RemoveCallbackError Unit)) :
            Reactor T × Except RemoveCallbackError Unit) = (r', Except.ok ()) := h
        injection h2 with hr2 hok
        refine ⟨{ cell with callbacks := listModify cell.callbacks k (fun _ => false) }, ?_, ?_⟩
        · rw [← hr2]
          show (listModify r.compute_cells c
            (fun x => { x with callbacks := listModify x.callbacks k (fun _ => false) })).get? c
            = _
          rw [get?_listModify_self, hg]
          rfl
        · show (listModify cell.callbacks k (fun _ => false)).get? k = some false
          rw [get?_listModify_self, hcb]
          rfl

/-- Removing a tombstoned slot fails with `NonexistentCallback`. -/
theorem remove_callback_on_inactive {r : Reactor T} {c k : Nat} (h : Inactive r c k) :
    (r.remove_callback c k).2 = Except.error RemoveCallbackError.NonexistentCallback := by
  obtain ⟨cc, hcc, hk⟩ := h
  rw [remove_callback_eq_some hcc, hk]
  rfl

/-! ### The claims -/

/-- The reachable skip-level diamond of the spec (§4.1 tolerates a cell
reachable via multiple paths of different lengths): input A = 1, compute
B = A (cell 0), compute C = B (cell 1), compute D = B + C (cell 2).  During
`set_value(A, _)` the frame recomputing B still holds B's `RefMut` when D,
reached through C, reads its dependency B. -/
def cPanic : Reactor Nat :=
  ((((((Reactor.new : Reactor Nat).create_input 1).1.create_compute
        [CellId.Input 0] (fun l => l.getD 0 0)).1).create_compute
        [CellId.Compute 0] (fun l => l.getD 0 0)).1.create_compute
        [CellId.Compute 0, CellId.Compute 1] (fun l => l.getD 0 0 + l.getD 1 0)).1

theorem reachable_cPanic : Reachable cPanic :=
  Reachable.create_compute [CellId.Compute 0, CellId.Compute 1]
    (fun l => l.getD 0 0 + l.getD 1 0)
    (Reachable.create_compute [CellId.Compute 0] (fun l => l.getD 0 0)
      (Reachable.create_compute [CellId.Input 0] (fun l => l.getD 0 0)
        (Reachable.create_input 1 Reachable.new)))

/-- C1 (code bug): the propagation guarantee fails on a reachable graph.
On the skip-level diamond `cPanic`, `set_value` on the valid input panics
from a `RefCell` double borrow — the frame recomputing B still holds its
`RefMut` (taken at lib.rs 228) when D, reached through C, reads dependency
B via `value` and `borrow()` (lib.rs 149, 184) — instead of returning with
every downstream cell updated, so no post-call state exists at all. -/
theorem claim_C1 :
    Reachable cPanic ∧
    cPanic.inputs.get? 0 = some { value := 1, downstream := [0] } ∧
    cPanic.set_value 0 2 = some (Except.error ()) ∧
    ∀ x, cPanic.set_value 0 2 ≠ some (Except.ok x) := by
  refine ⟨reachable_cPanic, rfl, rfl, ?_⟩
  intro x hx
  have h2 : (some (Except.error ()) :
      Option (Except Unit (Reactor Nat × Bool × List (Nat × Nat × Nat))))
    = some (Except.ok x) := hx
  exact absurd (Option.some.inj h2) (by simp)

/-- The skip-level diamond with a live callback registered on D. -/
def cPanicCb : Reactor Nat := (cPanic.add_callback 2).1

theorem reachable_cPanicCb : Reachable cPanicCb :=
  Reachable.add_callback 2 reachable_cPanic

/-- C2 (code bug): the exactly-once firing guarantee has no run to hold on
for the reachable skip-level diamond — the `set_value` call panics during
propagation (before any callback could fire), so the registered live
callback on D never receives any value and no event list is produced. -/
theorem claim_C2 :
    Reachable cPanicCb ∧
    (cPanicCb.compute_cells.get? 2).map ComputeCell.callbacks = some [true] ∧
    cPanicCb.set_value 0 2 = some (Except.error ()) ∧
    ∀ r' b fired, cPanicCb.set_value 0 2 ≠ some (Except.ok (r', b, fired)) := by
  refine ⟨reachable_cPanicCb, rfl, rfl, ?_⟩
  intro r' b fired hx
  have h2 : (some (Except.error ()) :
      Option (Except Unit (Reactor Nat × Bool × List (Nat × Nat × Nat))))
    = some (Except.ok (r', b, fired)) := hx
  exact absurd (Option.some.inj h2) (by simp)

/-- A reactor with one input (value 1), one compute cell
(successor of the input, so value 2) and one live callback on it. -/
def cRW : Reactor Nat :=
  (((((Reactor.new : Reactor Nat).create_input 1).1).create_compute
    [CellId.Input 0] (fun l => l.getD 0 0 + 1)).1.add_callback 0).1

theorem reachable_cRW : Reachable cRW :=
  Reachable.add_callback 0 (Reachable.create_compute [CellId.Input 0]
    (fun l => l.getD 0 0 + 1) (Reachable.create_input 1 Reachable.new))

/-- A reachable reactor with a valid compute cell 0 that never had a
callback registered. -/
def cBugReactor : Reactor Nat :=
  (((Reactor.new : Reactor Nat).create_input 1).1.create_compute
    [CellId.Input 0] (fun l => l.getD 0 0)).1

/-- C3: divergence between code and spec.  On a reachable state with a valid
compute cell 0 whose callback list is empty (so callback id 0 was never
issued), the source's `remove_callback` returns `NonexistentCell` — the inner
`map_or` of lib.rs line 287 reuses the wrong error — whereas the spec demands
`NonexistentCallback` for a never-issued callback id on a valid cell. -/
theorem claim_C3 :
    Reachable cBugReactor ∧
    cBugReactor.valid (CellId.Compute 0) = true ∧
    (cBugReactor.compute_cells.get? 0).map ComputeCell.callbacks = some [] ∧
    (cBugReactor.remove_callback 0 0).2
      = Except.error RemoveCallbackError.NonexistentCell ∧
    (cBugReactor.remove_callback 0 0).2
      ≠ Except.error RemoveCallbackError.NonexistentCallback := by
  refine ⟨?_, rfl, rfl, rfl, ?_⟩
  · exact Reachable.create_compute [CellId.Input 0] (fun l => l.getD 0 0)
      (Reachable.create_input 1 Reachable.new)
  · intro h
    have h2 : (Except.error RemoveCallbackError.NonexistentCell :
        Except RemoveCallbackError Unit)
      = Except.error RemoveCallbackError.NonexistentCallback := h
    exact absurd h2 (by simp)

/-- C4: when some dependency handle is invalid, `create_compute` returns an
error carrying an invalid handle and the reactor is returned entirely
unchanged — same inputs, same compute cells, same before-update buffer. -/
theorem claim_C4 {r : Reactor T} {deps : List CellId} (f : List T → T)
    (h : ∃ d ∈ deps, r.valid d = false) :
    ∃ bad, bad ∈ deps ∧ r.valid bad = false ∧
      r.create_compute deps f = (r, Except.error bad) := by
  obtain ⟨d, hd, hbad⟩ := h
  have hsome : (deps.find? (fun cid => !(r.valid cid))).isSome := by
    rw [List.find?_isSome]
    exact ⟨d, hd, by rw [hbad]; rfl⟩
  obtain ⟨bad, hfind⟩ := Option.isSome_iff_exists.mp hsome
  have hmem : bad ∈ deps := List.mem_of_find?_eq_some hfind
  have hbad' : r.valid bad = false := by simpa using List.find?_some hfind
  exact ⟨bad, hmem, hbad', create_compute_of_invalid f hfind⟩

theorem claim_C4_witness :
    ∃ bad, bad ∈ [CellId.Input 0] ∧ (Reactor.new : Reactor Nat).valid bad = false ∧
      (Reactor.new : Reactor Nat).create_compute [CellId.Input 0] (fun _ => 0)
        = ((Reactor.new : Reactor Nat), Except.error bad) :=
  claim_C4 (fun _ => 0) ⟨CellId.Input 0, List.mem_cons_self _ _, rfl⟩

/-- C5 (code bug): setting an input to its current value is not the no-op
the spec promises — the source runs the full propagation regardless of any
value change, and on the reachable skip-level diamond that propagation
panics from the `RefCell` double borrow even though no value changed, so
the call neither returns nor leaves the engine usable. -/
theorem claim_C5 :
    Reachable cPanic ∧
    cPanic.value (CellId.Input 0) = some 1 ∧
    cPanic.set_value 0 1 = some (Except.error ()) ∧
    ∀ x, cPanic.set_value 0 1 ≠ some (Except.ok x) := by
  refine ⟨reachable_cPanic, rfl, rfl, ?_⟩
  intro x hx
  have h2 : (some (Except.error ()) :
      Option (Except Unit (Reactor Nat × Bool × List (Nat × Nat × Nat))))
    = some (Except.ok x) := hx
  exact absurd (Option.some.inj h2) (by simp)

/-- C6: when all dependency handles are valid, `create_compute` returns Ok
with a fresh handle (invalid before the call, valid after), and the new
cell's value immediately equals the compute function applied to the current
dependency values in declared order. -/
theorem claim_C6 {r : Reactor T} {deps : List CellId}
    (hv : ∀ d ∈ deps, r.valid d = true) (f : List T → T) :
    ∃ r', r.create_compute deps f = (r', Except.ok r.compute_cells.length) ∧
      r.valid (CellId.Compute r.compute_cells.length) = false ∧
      r'.valid (CellId.Compute r.compute_cells.length) = true ∧
      r'.value (CellId.Compute r.compute_cells.length)
        = some (f (r.values_from_dependencies deps)) := by
  obtain ⟨r', heq, hdeps, hval, hbefore, hafter⟩ := create_compute_spec hv f
  refine ⟨r', heq, hbefore, hafter, ?_⟩
  rw [hval, vfd_congr hdeps]

/-- A reactor with a single input holding 2. -/
def cSeed : Reactor Nat := ((Reactor.new : Reactor Nat).create_input 2).1

theorem claim_C6_witness :
    ∃ r', cSeed.create_compute [CellId.Input 0] (fun l => l.getD 0 0 + 1)
        = (r', Except.ok cSeed.compute_cells.length) ∧
      cSeed.valid (CellId.Compute cSeed.compute_cells.length) = false ∧
      r'.valid (CellId.Compute cSeed.compute_cells.length) = true ∧
      r'.value (CellId.Compute cSeed.compute_cells.length)
        = some ((fun l => l.getD 0 0 + 1)
            (cSeed.values_from_dependencies [CellId.Input 0])) :=
  claim_C6 (fun d hd => by rw [List.mem_singleton] at hd; subst hd; rfl)
    (fun l => l.getD 0 0 + 1)

/-- C7: after a successful `remove_callback (c, k)`, along every later trace
of public operations no fired event ever names the pair `(c, k)` (the
removed callback is never invoked), and removing the same pair again at any
later state fails with `NonexistentCallback`. -/
theorem claim_C7 {r r1 : Reactor T} {c k : Nat}
    (h : r.remove_callback c k = (r1, Except.ok ()))
    {r2 : Reactor T} {evs : List (Nat × Nat × T)} (tr : Trace r1 r2 evs) :
    (∀ v, (c, k, v) ∉ evs) ∧
    (r2.remove_callback c k).2 = Except.error RemoveCallbackError.NonexistentCallback := by
  have h1 := remove_callback_ok h
  obtain ⟨h2, h3⟩ := trace_preserves_inactive tr h1
  exact ⟨h3, remove_callback_on_inactive h2⟩

theorem claim_C7_witness :
    ((cRW.remove_callback 0 0).1.remove_callback 0 0).2
      = Except.error RemoveCallbackError.NonexistentCallback :=
  (claim_C7 (show cRW.remove_callback 0 0 = ((cRW.remove_callback 0 0).1, Except.ok ())
    from rfl) (Trace.refl (cRW.remove_callback 0 0).1)).2

/-- C8 (code bug): the invalid-handle half of the claim holds (false is
returned with the state unchanged and nothing fired), but the valid-handle
half — that `set_value` with a valid input handle returns true — fails on
the reachable skip-level diamond: the call panics from the `RefCell` double
borrow instead of returning true. -/
theorem claim_C8 :
    cPanic.set_value 5 2 = some (Except.ok (cPanic, false, [])) ∧
    Reachable cPanic ∧
    (cPanic.inputs.get? 0).isSome = true ∧
    cPanic.set_value 0 2 = some (Except.error ()) ∧
    ∀ r' fired, cPanic.set_value 0 2 ≠ some (Except.ok (r', true, fired)) := by
  refine ⟨rfl, reachable_cPanic, rfl, rfl, ?_⟩
  intro r' fired hx
  have h2 : (some (Except.error ()) :
      Option (Except Unit (Reactor Nat × Bool × List (Nat × Nat × Nat))))
    = some (Except.ok (r', true, fired)) := hx
  exact absurd (Option.some.inj h2) (by simp)

/-- C9: on a reachable state (whose downstream edges all point to
later-created compute cells), the propagation recursion triggered by
`set_value` on a valid input terminates: within the fuel bound
`compute_cells.length + 1` the traversal always completes — returning a
state or a panic, never diverging — and `set_value` is never `none`. -/
theorem claim_C9 {r : Reactor T} (hR : Reachable r) {i : Nat} {cell : InputCell T}
    (hi : r.inputs.get? i = some cell) (v : T) :
    ∃ r2, Reactor.updateDownstream (r.compute_cells.length + 1) (r.setInput i v)
        [] cell.downstream (CellId.Input i) v = some r2 ∧
      r.set_value i v ≠ none := by
  have hW := hR.wf.wfe
  have hW1 : WfE (r.setInput i v) := hW.transportE (setInput_struct r i v)
  have hds : ∀ d ∈ cell.downstream, d < (r.setInput i v).compute_cells.length :=
    fun d hd => hW.input_down_lt i cell hi d hd
  obtain ⟨x, hx⟩ := updateDownstream_total_faithful hW1 hds (CellId.Input i) v
  have hx' : Reactor.updateDownstream (r.compute_cells.length + 1) (r.setInput i v)
      [] cell.downstream (CellId.Input i) v = some x := hx
  refine ⟨x, hx', ?_⟩
  rw [set_value_valid_eq hi, hx']
  cases x with
  | error e => exact fun hcon => Option.noConfusion hcon
  | ok r2 => exact fun hcon => Option.noConfusion hcon

theorem claim_C9_witness :
    ∃ r2, Reactor.updateDownstream (cRW.compute_cells.length + 1) (cRW.setInput 0 8)
        [] [0] (CellId.Input 0) 8 = some r2 ∧
      cRW.set_value 0 8 ≠ none :=
  claim_C9 reachable_cRW
    (show cRW.inputs.get? 0 = some { value := 1, downstream := [0] } from rfl) 8

/-- C10: the before-update buffer is empty on every reachable state, stays
empty across `create_input`, `create_compute`, `add_callback` and
`remove_callback`, and every `set_value` that returns normally hands back a
state whose buffer has been cleared. -/
theorem claim_C10 {r : Reactor T} (hR : Reachable r) :
    r.values_before_update = [] ∧
    (∀ v : T, ((r.create_input v).1).values_before_update = []) ∧
    (∀ deps f, ((r.create_compute deps f).1).values_before_update = []) ∧
    (∀ c, ((r.add_callback c).1).values_before_update = []) ∧
    (∀ c k, ((r.remove_callback c k).1).values_before_update = []) ∧
    (∀ i v r' b fired, r.set_value i v = some (.ok (r', b, fired)) →
      r'.values_before_update = []) := by
  have hbe := hR.wf.before_empty
  refine ⟨hbe, ?_, ?_, ?_, ?_, ?_⟩
  · intro v
    exact hbe
  · intro deps f
    cases hfind : deps.find? (fun cid => !(r.valid cid)) with
    | some bad =>
      rw [create_compute_of_invalid f hfind]
      exact hbe
    | none =>
      rw [create_compute_of_valid f hfind]
      exact (addAll_before deps _ _).trans hbe
  · intro c
    unfold Reactor.add_callback
    cases hg : r.compute_cells.get? c with
    | none => exact hbe
    | some cell => exact hbe
  · intro c k
    cases hg : r.compute_cells.get? c with
    | none =>
      rw [remove_callback_eq_none hg]
      exact hbe
    | some cell =>
      rw [remove_callback_eq_some hg]
      cases hcb : cell.callbacks.get? k with
      | none => exact hbe
      | some slot =>
        cases slot with
        | false => exact hbe
        | true => exact hbe
  · intro i v r' b fired h
    rcases set_value_cases h with ⟨hr', _, _⟩ | ⟨cell, r2, hi, hf, hr', hb, hfired⟩
    · subst hr'
      exact hbe
    · subst hr'
      rfl

theorem claim_C10_witness :
    cSeed.values_before_update = [] ∧
    (∀ v : Nat, ((cSeed.create_input v).1).values_before_update = []) ∧
    (∀ deps f, ((cSeed.create_compute deps f).1).values_before_update = []) ∧
    (∀ c, ((cSeed.add_callback c).1).values_before_update = []) ∧
    (∀ c k, ((cSeed.remove_callback c k).1).values_before_update = []) ∧
    (∀ i v r' b fired, cSeed.set_value i v = some (.ok (r', b, fired)) →
      r'.values_before_update = []) :=
  claim_C10 (Reachable.create_input 2 Reachable.new)

end React
